import Mathlib

/-!
# Verification of the eikv storage engine against its specification

A shallow embedding of the eikv LSM key-value store (Rust) in Lean 4.
Bytes are modelled as `Nat` (well-formed buffers carry the bound `< 256`),
machine integers as `Nat` with explicit `% 2 ^ w` where overflow matters,
and fallible Rust code as `Option`/`Except` results.  Functions that index
into slices are additionally instrumented: an out-of-bounds access (a Rust
panic) is modelled as the outer `Option` being `none`, while a clean
decoder failure (`Option::None` / `Err` in the source) is an inner value.

Sources embedded (paths relative to the repository root):
* `src/util/coding.rs` — fixed/varint codecs;
* `src/model/entry.rs` — entry encode/decode and ordering;
* `src/wal/write_batch.rs` — write-batch framing and sequence stamping;
* `src/mem_db/mem_table.rs` — memtable point lookup;
* `src/mem_db/write_queue.rs` — group-commit queue (as a transition system);
* `src/sst/merger.rs` — k-way merge step `read_some`;
* `src/model/manifest.rs` — `should_merge` overlap closure;
* `src/db/mod.rs` — `DB::get`.
-/

namespace Eikv

/-- Error kind relevant to the embedded fragment (`EikvError` in `src/error.rs`
and `src/lib.rs`): the WAL-corruption variant raised by `Entry::decode` and
`WriteBatch::decode`.  The message strings are irrelevant to the claims. -/
inductive EikvError where
  | walCorruption : EikvError
deriving DecidableEq, Repr

/-- A buffer whose elements are genuine bytes. -/
def ByteList (l : List Nat) : Prop := ∀ b ∈ l, b < 256

instance (l : List Nat) : Decidable (ByteList l) := by
  unfold ByteList; infer_instance

/-! ## Fixed-width little-endian codec (`src/util/coding.rs`) -/

/-- The four little-endian bytes pushed by `append_fixed_u32`
(`src/util/coding.rs:1-9`): four iterations of `push (value & 0xff)`,
`value >>= 8`.  A `u32` argument means the input is taken mod `2 ^ 32`,
which the four-byte window enforces by itself. -/
def fixedU32Bytes (value : Nat) : List Nat :=
  [value % 256, value >>> 8 % 256, value >>> 16 % 256, value >>> 24 % 256]

/-- `append_fixed_u32` (`src/util/coding.rs:1-9`). -/
def append_fixed_u32 (buf : List Nat) (value : Nat) : List Nat :=
  buf ++ fixedU32Bytes value

/-- `decode_fixed_u32` (`src/util/coding.rs:21-29`): little-endian
reassembly `value |= buf[i] << (i*8)` for `i < 4`.  The source
`debug_assert`s that the slice has length exactly 4 and reads `buf[i]`
unconditionally; callers in the claims always pass 4-byte buffers. -/
def decode_fixed_u32 (buf : List Nat) : Nat :=
  buf.getD 0 0 ||| (buf.getD 1 0 <<< 8) ||| (buf.getD 2 0 <<< 16) |||
    (buf.getD 3 0 <<< 24)

/-! ## Varint codec (`src/util/coding.rs:51-115`) -/

/-- The byte list pushed by `append_var_u64` (`src/util/coding.rs:61-69`):
while `value > 0x7f` push `value & 0x7f | 0x80` and shift right by 7;
finally push `value & 0x7f` (which then equals `value`).  `append_var_u32`
(`src/util/coding.rs:51-59`) is the same loop at type `u32`; on `Nat` the
two coincide, the `u32`/`u64` width living in the caller's argument. -/
def varBytes (value : Nat) : List Nat :=
  if _h : value > 0x7f then
    (value &&& 0x7f ||| 0x80) :: varBytes (value >>> 7)
  else
    [value]
  termination_by value
  decreasing_by
    simp only [Nat.shiftRight_eq_div_pow]
    exact Nat.div_lt_self (Nat.lt_of_lt_of_le (by norm_num) (Nat.le_of_lt _h))
      (by norm_num)

/-- `append_var_u64` / `append_var_u32` appending form. -/
def append_var_u64 (buf : List Nat) (value : Nat) : List Nat :=
  buf ++ varBytes value

/-- The loop of `decode_var_u64` (`src/util/coding.rs:94-115`), instrumented:
the outer `Option` is `none` exactly when `buf[i]` would be out of bounds
(a Rust panic), the inner `none` is the decoder's `None`.  `i` is the loop
index, `limit = min(buf.len(), 10)`, `shift` the current bit offset and
`value` the accumulator.  The `value |= b << shift` runs at `u64`, hence
the explicit `% 2 ^ 64`. -/
def decodeVarU64Go (buf : List Nat) (limit : Nat) (i shift value : Nat) :
    Option (Option (Nat × Nat)) :=
  if _h : i < limit then
    match buf.get? i with
    | none => none
    | some byte =>
      let b := byte &&& 0x7f
      if shift = 63 ∧ b &&& 0x7e ≠ 0 then
        some none
      else
        let value := value ||| (b <<< shift) % 2 ^ 64
        if byte < 0x80 then
          some (some (value, i + 1))
        else
          decodeVarU64Go buf limit (i + 1) (shift + 7) value
  else
    some none
  termination_by limit - i

/-- `decode_var_u64` (`src/util/coding.rs:94-115`). -/
def decode_var_u64 (buf : List Nat) : Option (Option (Nat × Nat)) :=
  if buf.isEmpty then
    some none
  else
    decodeVarU64Go buf (if buf.length < 10 then buf.length else 10) 0 0 0

/-- The loop of `decode_var_u32` (`src/util/coding.rs:71-92`), instrumented
as for `decodeVarU64Go`; `limit = min(buf.len(), 5)`, overflow check at
`shift = 28` with mask `0b0111_0000`, accumulator at `u32`. -/
def decodeVarU32Go (buf : List Nat) (limit : Nat) (i shift value : Nat) :
    Option (Option (Nat × Nat)) :=
  if _h : i < limit then
    match buf.get? i with
    | none => none
    | some byte =>
      let b := byte &&& 0x7f
      if shift = 28 ∧ b &&& 0x70 ≠ 0 then
        some none
      else
        let value := value ||| (b <<< shift) % 2 ^ 32
        if byte < 0x80 then
          some (some (value, i + 1))
        else
          decodeVarU32Go buf limit (i + 1) (shift + 7) value
  else
    some none
  termination_by limit - i

/-- `decode_var_u32` (`src/util/coding.rs:71-92`). -/
def decode_var_u32 (buf : List Nat) : Option (Option (Nat × Nat)) :=
  if buf.isEmpty then
    some none
  else
    decodeVarU32Go buf (if buf.length < 5 then buf.length else 5) 0 0 0

/-- Rust slice `&buf[a..b]`: panics (`none`) unless `a ≤ b ≤ buf.len()`. -/
def sliceP (buf : List Nat) (a b : Nat) : Option (List Nat) :=
  if a ≤ b ∧ b ≤ buf.length then some ((buf.drop a).take (b - a)) else none

/-- Rust slice `&buf[a..]`: panics (`none`) unless `a ≤ buf.len()`. -/
def suffixFromP (buf : List Nat) (a : Nat) : Option (List Nat) :=
  if a ≤ buf.length then some (buf.drop a) else none

/-- `decode_bytes_with_len` (`src/util/coding.rs:117-128`): varint `u32`
length followed by that many raw bytes; `None` (inner) if the buffer is
short.  The slice `buf[buf_off..buf_off+bytes_len]` is instrumented via
`sliceP`. -/
def decode_bytes_with_len (buf : List Nat) : Option (Option (List Nat × Nat)) :=
  match decode_var_u32 buf with
  | none => none
  | some none => some none
  | some (some (bytesLen, n)) =>
    if n + bytesLen > buf.length then
      some none
    else
      match sliceP buf n (n + bytesLen) with
      | none => none
      | some bytes => some (some (bytes, n + bytesLen))

/-! ## CRC-32

`WriteBatch::encode`/`decode` call `crc32_checksum` from `util/checksum.rs`,
a file that is not present under `src/`. -/

/-- Modelled from the spec: `util/checksum.rs` (`crc32_checksum`) is absent
from `src/`; the spec (§2, §4.3) says records are protected by CRC32.  This
is the standard CRC-32 (ISO-HDLC / IEEE 802.3) bit computation: reflected
polynomial `0xEDB88320`.  One bit step of the state. -/
def crcBit (s : Nat) : Nat :=
  if s % 2 = 1 then (s >>> 1) ^^^ 0xEDB88320 else s >>> 1

/-- Eight CRC bit steps. -/
def crcBit8 (s : Nat) : Nat :=
  crcBit (crcBit (crcBit (crcBit (crcBit (crcBit (crcBit (crcBit s)))))))

/-- Absorb one byte into the CRC state. -/
def crcByteStep (s b : Nat) : Nat :=
  crcBit8 (s ^^^ b)

/-- Modelled from the spec: CRC-32 of a byte buffer with initial state
`0xFFFFFFFF` and final complement, standing in for the absent
`crc32_checksum` of `util/checksum.rs`. -/
def crc32_checksum (data : List Nat) : Nat :=
  (data.foldl crcByteStep 0xFFFFFFFF) ^^^ 0xFFFFFFFF

/-! ## Entries (`src/model/entry.rs`)

The engine is generic over `K : Key`, `V : Value`; the canonical instances
(`src/model/key.rs`, `src/model/value.rs`) are byte vectors with the
identity codec, and the spec (§9) says the engine treats keys and values
as byte strings.  The embedding fixes `K = V = List Nat` accordingly. -/

/-- `Entry<Vec<u8>, Vec<u8>>` (`src/model/entry.rs:8-13`): a key, a `u64`
sequence number, and an optional value (`none` is a tombstone). -/
structure RawEntry where
  key : List Nat
  seq : Nat
  value : Option (List Nat)
deriving DecidableEq, Repr

/-- Lexicographic strict order on byte vectors: Rust's `Ord for Vec<u8>`,
also the `DefaultComparator` of `src/comparator.rs`. -/
def bytesLt : List Nat → List Nat → Bool
  | [], [] => false
  | [], _ :: _ => true
  | _ :: _, [] => false
  | a :: as, b :: bs => if a < b then true else if b < a then false else bytesLt as bs

/-- `Entry::cmp` as a `≤` test (`src/model/entry.rs:32-39`): keys compare
first (under the byte order), `seq` breaks ties; the value is ignored. -/
def entryLe (e1 e2 : RawEntry) : Bool :=
  bytesLt e1.key e2.key || (e1.key == e2.key && e1.seq ≤ e2.seq)

/-- Strict version of `entryLe`. -/
def entryLt (e1 e2 : RawEntry) : Bool :=
  bytesLt e1.key e2.key || (e1.key == e2.key && e1.seq < e2.seq)

/-- `Entry::encode` (`src/model/entry.rs:42-62`) at the byte-vector
instance (`key.encode()` is the identity): varint key length (`as u32`,
hence the `% 2 ^ 32`), key bytes, varint `seq`, then tag `1` followed by
varint value length and value bytes, or tag `2` for a tombstone. -/
def entryEncode (e : RawEntry) : List Nat :=
  varBytes (e.key.length % 2 ^ 32) ++ e.key ++ varBytes e.seq ++
    (match e.value with
     | some v => 1 :: (varBytes (v.length % 2 ^ 32) ++ v)
     | none => [2])

/-- `Entry::decode_to_vec_u8` (`src/model/entry.rs:64-104`), instrumented:
outer `none` is a panic (out-of-bounds slice or index), inner `none` the
decoder's `None`.  Stages: length-prefixed key, varint `seq`, the
end-of-buffer check, the tag byte `buf[buf_off - 1]`, and for tag `1` a
length-prefixed value. -/
def decode_to_vec_u8 (buf : List Nat) : Option (Option (RawEntry × Nat)) :=
  match decode_bytes_with_len buf with
  | none => none
  | some none => some none
  | some (some (key, n1)) =>
    match suffixFromP buf n1 with
    | none => none
    | some rest =>
      match decode_var_u64 rest with
      | none => none
      | some none => some none
      | some (some (seq, n2)) =>
        if n1 + n2 = buf.length then
          some none
        else
          match buf.get? (n1 + n2) with
          | none => none
          | some tag =>
            if tag = 1 then
              match suffixFromP buf (n1 + n2 + 1) with
              | none => none
              | some rest2 =>
                match decode_bytes_with_len rest2 with
                | none => none
                | some none => some none
                | some (some (value, n3)) =>
                  some (some (⟨key, seq, some value⟩, n1 + n2 + 1 + n3))
            else if tag = 2 then
              some (some (⟨key, seq, none⟩, n1 + n2 + 1))
            else
              some none

/-- `Entry::decode` (`src/model/entry.rs:106-128`) at the byte-vector
instance: the `K::decode`/`V::decode` calls are the identity and cannot
fail, so the only error is the corruption error on a failed parse. -/
def entryDecode (buf : List Nat) : Option (Except EikvError (RawEntry × Nat)) :=
  match decode_to_vec_u8 buf with
  | none => none
  | some none => some (Except.error EikvError.walCorruption)
  | some (some (e, n)) => some (Except.ok (e, n))

/-! ## Write batches (`src/wal/write_batch.rs`) -/

/-- `WriteBatch::put` (`src/wal/write_batch.rs:43-51`): appends an entry
with `seq = 0` and a value. -/
def writeBatchPut (wb : List RawEntry) (key value : List Nat) : List RawEntry :=
  wb ++ [⟨key, 0, some value⟩]

/-- `WriteBatch::delete` (`src/wal/write_batch.rs:53-61`): appends a
tombstone with `seq = 0`. -/
def writeBatchDelete (wb : List RawEntry) (key : List Nat) : List RawEntry :=
  wb ++ [⟨key, 0, none⟩]

/-- `WriteBatch::set_seqs` (`src/wal/write_batch.rs:35-41`): stamps the
entries with `start, start+1, …` in order; the counter is a `u64`. -/
def set_seqs : List RawEntry → Nat → List RawEntry
  | [], _ => []
  | e :: es, seq => { e with seq := seq } :: set_seqs es ((seq + 1) % 2 ^ 64)

/-- Concatenation of the encodings of a batch's entries, in order
(the loop of `WriteBatch::encode`, `src/wal/write_batch.rs:69-71`). -/
def entriesEncode : List RawEntry → List Nat
  | [] => []
  | e :: es => entryEncode e ++ entriesEncode es

/-- `WriteBatch::encode` (`src/wal/write_batch.rs:63-79`): push eight zero
bytes, then the entries; patch the record length (`as u32`, header
included) into bytes 4..8; compute the CRC over the record *with the CRC
field still zero* and patch it into bytes 0..4.  `Writer::append`
(`src/wal/writer.rs:29-34`) calls this on an empty buffer, so the record
itself is modelled. -/
def writeBatchEncode (entries : List RawEntry) : List Nat :=
  let body := entriesEncode entries
  let len := 8 + body.length
  let afterLenPatch := List.replicate 4 0 ++ fixedU32Bytes len ++ body
  let checksum := crc32_checksum afterLenPatch
  fixedU32Bytes checksum ++ fixedU32Bytes len ++ body

/-- The entry loop of `WriteBatch::decode` (`src/wal/write_batch.rs:87-93`):
`while buf_off != buf.len()` decode an entry at `&buf[buf_off..]` and
advance by the consumed count.  Instrumented: a slice with
`buf_off > buf.len()` is a panic (`none`); a zero-byte parse would loop
forever in the source — it is mapped to `none` and shown unreachable
(`entryDecode` consumes at least one byte, `decode_consumes_pos`). -/
def writeBatchDecodeFrom (buf : List Nat) (bufOff : Nat) :
    Option (Except EikvError (List RawEntry)) :=
  if _hEnd : bufOff = buf.length then
    some (Except.ok [])
  else if _hLe : bufOff ≤ buf.length then
    match entryDecode (buf.drop bufOff) with
    | none => none
    | some (Except.error e) => some (Except.error e)
    | some (Except.ok (entry, n)) =>
      if _hn : 0 < n then
        match writeBatchDecodeFrom buf (bufOff + n) with
        | none => none
        | some (Except.error e) => some (Except.error e)
        | some (Except.ok es) => some (Except.ok (entry :: es))
      else
        none
  else
    none
  termination_by buf.length - bufOff
  decreasing_by omega

/-- `WriteBatch::decode` (`src/wal/write_batch.rs:81-97`): the caller
supplies the record buffer and the checksum it read from the header; the
CRC of the buffer is recomputed and compared, then the entries are decoded
starting at offset 8. -/
def writeBatchDecode (buf : List Nat) (checksum : Nat) :
    Option (Except EikvError (List RawEntry)) :=
  if checksum ≠ crc32_checksum buf then
    some (Except.error EikvError.walCorruption)
  else
    writeBatchDecodeFrom buf 8

/-- Modelled from the spec: the WAL reader revision that feeds
`WriteBatch::decode` is absent from `src/` (`src/wal/reader.rs` is an older
prost-based revision that does not call it).  Per spec §4.3 the reader
splits off the 8-byte header `crc32 ‖ length`, takes the checksum from the
header, and hands `decode` the record buffer with its first four bytes
zeroed — the convention visible in the retained reader revision
(`src/wal/reader.rs:45-57`, `wb_buf[0..4]` left zero). -/
def walFrameDecode (record : List Nat) : Option (Except EikvError (List RawEntry)) :=
  writeBatchDecode (List.replicate 4 0 ++ record.drop 4)
    (decode_fixed_u32 (record.take 4))

/-- Well-formedness of an entry as a Rust value: the key is a byte vector
whose length fits `u32` (so the `as u32` cast is lossless), `seq` fits
`u64`, and any value is a byte vector with a `u32` length. -/
def WfEntry (e : RawEntry) : Prop :=
  e.key.length < 2 ^ 32 ∧ ByteList e.key ∧ e.seq < 2 ^ 64 ∧
    ∀ v, e.value = some v → v.length < 2 ^ 32 ∧ ByteList v

instance (e : RawEntry) : Decidable (WfEntry e) := by
  unfold WfEntry
  exact instDecidableAnd

/-- Well-formedness of a write batch. -/
def WfBatch (es : List RawEntry) : Prop := ∀ e ∈ es, WfEntry e

instance (es : List RawEntry) : Decidable (WfBatch es) := by
  unfold WfBatch; infer_instance

/-! ## Memtable lookup and `DB::get`
(`src/mem_db/mem_table.rs`, `src/mem_db/mod.rs`, `src/db/mod.rs`)

A `BTreeSet<Entry>` is modelled as the list of its elements;
`range(..=max_entry).next_back()` returns the greatest element `≤
max_entry` under the entry order, which on a list is the `entryLe`-maximum
of the elements satisfying the bound. -/

/-- `table.range(..=bound).next_back()`: the greatest element of `t` that
is `≤ bound` under the entry order (`None` if there is none). -/
def tableMaxLe (t : List RawEntry) (bound : RawEntry) : Option RawEntry :=
  (t.filter (fun e => entryLe e bound)).foldl
    (fun acc e =>
      match acc with
      | none => some e
      | some m => if entryLe m e then some e else some m)
    none

/-- `MemTable::get` (`src/mem_db/mem_table.rs:38-57`): build `max_entry =
(key, seq_guard, None)`, take the predecessor in `mut_table`, and only if
that is `None` the predecessor in `immut_table`.  Note the source never
compares the found entry's key with `key`. -/
def memTableGet (mutTable immutTable : List RawEntry) (key : List Nat)
    (seqGuard : Nat) : Option RawEntry :=
  let maxEntry : RawEntry := ⟨key, seqGuard, none⟩
  match tableMaxLe mutTable maxEntry with
  | some e => some e
  | none => tableMaxLe immutTable maxEntry

/-- The in-memory/on-disk state a `DB` value reaches through `get`:
the two memtables, plus the SST levels and manifest WAL set that `get`
never consults. -/
structure DBState where
  mutTable : List RawEntry
  immutTable : List RawEntry
  sstLevels : List (List (Nat × List RawEntry))
  manifestWals : List Nat
deriving Repr

/-- `DB::get` (`src/db/mod.rs:101-106`): `MemDB::get`
(`src/mem_db/mod.rs:36-38`) with `seq_guard = u64::MAX`, then the found
entry's value (`Ok(entry.value)`), or `None`. -/
def dbGet (s : DBState) (key : List Nat) : Option (List Nat) :=
  match memTableGet s.mutTable s.immutTable key (2 ^ 64 - 1) with
  | some e => e.value
  | none => none

/-! ## Merger `read_some` (`src/sst/merger.rs:66-116`)

An SST iterator is modelled as the list of entries it has yet to yield
(`iterator.entry()` is its head, `iterator.next()` its tail). -/

/-- `Merger::get_min_user_key` (`src/sst/merger.rs:66-87`): the smallest
key among the live iterator heads (`entry.unshared_key < min_user_key`
uses the byte order). -/
def getMinUserKey (iters : List (List RawEntry)) : Option (List Nat) :=
  iters.foldl
    (fun acc it =>
      match it.head? with
      | none => acc
      | some e =>
        match acc with
        | none => some e.key
        | some m => if bytesLt e.key m then some e.key else some m)
    none

/-- The inner `loop` of `Merger::read_some` (`src/sst/merger.rs:94-108`)
on one iterator: consume the leading entries whose key equals `minKey`;
an entry with `seq ≤ guard` *overwrites* `last` (the running
`last_before_guard`), an entry with `seq > guard` is appended to `acc`.
Returns the advanced iterator and the updated accumulators. -/
def readSomeIter (minKey : List Nat) (guard : Nat) :
    List RawEntry → Option RawEntry → List RawEntry →
    List RawEntry × Option RawEntry × List RawEntry
  | [], last, acc => ([], last, acc)
  | e :: rest, last, acc =>
    if e.key ≠ minKey then
      (e :: rest, last, acc)
    else if e.seq ≤ guard then
      readSomeIter minKey guard rest (some e) acc
    else
      readSomeIter minKey guard rest last (acc ++ [e])

/-- The outer `for iterator in self.iterators` of `read_some`
(`src/sst/merger.rs:93-109`), threading `last_before_guard` and `entries`
through the iterators in order. -/
def readSomeGo (minKey : List Nat) (guard : Nat) :
    List (List RawEntry) → Option RawEntry → List RawEntry →
    List (List RawEntry) × Option RawEntry × List RawEntry
  | [], last, acc => ([], last, acc)
  | it :: its, last, acc =>
    let r1 := readSomeIter minKey guard it last acc
    let r2 := readSomeGo minKey guard its r1.2.1 r1.2.2
    (r1.1 :: r2.1, r2.2.1, r2.2.2)

/-- `Merger::read_some` (`src/sst/merger.rs:89-116`): consume every entry
bearing the minimal key, append the surviving `last_before_guard`, and
sort the result by `seq` ascending (`sort_unstable_by` on `seq`).  Returns
the output entries and the advanced iterators; the `none` key case cannot
arise in the source (`read_some` is called only when not finished). -/
def read_some (iters : List (List RawEntry)) (guard : Nat) :
    List RawEntry × List (List RawEntry) :=
  match getMinUserKey iters with
  | none => ([], iters)
  | some minKey =>
    let r := readSomeGo minKey guard iters none []
    let out :=
      match r.2.1 with
      | some e => r.2.2 ++ [e]
      | none => r.2.2
    (out.mergeSort (fun e1 e2 => e1.seq ≤ e2.seq), r.1)

/-! ## Manifest `should_merge` (`src/model/manifest.rs:81-137`)

A level of the manifest is an association list `file_seq ↦ (min_entry,
max_entry)` (the `SstMeta` fields `should_merge` reads), in the iteration
order of the underlying `HashMap` (which the source leaves unspecified). -/

/-- The two `SstMeta` fields consulted by `should_merge`
(`src/model/sst_meta.rs`): the smallest and greatest entry of the SST. -/
structure SstRange where
  minE : RawEntry
  maxE : RawEntry
deriving DecidableEq, Repr

/-- `std::cmp::min` under the entry order (`min(a, b)` keeps `a` on a tie). -/
def entryMin (a b : RawEntry) : RawEntry :=
  if entryLe a b then a else b

/-- The running state of the `should_merge` closure loop. -/
structure MergeScan where
  minE : RawEntry
  maxE : RawEntry
  files : List (Nat × Nat)
  thisSeqs : List Nat
  nextSeqs : List Nat
  changed : Bool
deriving Repr

/-- One `for file_seq in self.get_level(l).keys()` pass of `should_merge`
(`src/model/manifest.rs:98-113` for the next level, `115-129` for the
merge level): an SST is added when `min_entry ≤ sst_min ≤ max_entry` or
`min_entry ≤ sst_max ≤ max_entry`; after the test — added or not — the
bounds are updated by `min_entry = min(min_entry, sst_min)` and
`max_entry = min(max_entry, sst_max)` (the source takes `min` of both). -/
def scanLevel (lvl : List (Nat × SstRange)) (levelId : Nat) (isNext : Bool)
    (st : MergeScan) : MergeScan :=
  lvl.foldl
    (fun st fs =>
      let st :=
        if (entryLe st.minE fs.2.minE && entryLe fs.2.minE st.maxE) ||
            (entryLe st.minE fs.2.maxE && entryLe fs.2.maxE st.maxE) then
          if (levelId, fs.1) ∈ st.files then
            st
          else
            { st with
              changed := true
              files := st.files ++ [(levelId, fs.1)]
              thisSeqs := if isNext then st.thisSeqs else st.thisSeqs ++ [fs.1]
              nextSeqs := if isNext then st.nextSeqs ++ [fs.1] else st.nextSeqs }
        else
          st
      { st with minE := entryMin st.minE fs.2.minE,
                maxE := entryMin st.maxE fs.2.maxE })
    st

/-- The `loop { … if !changed break }` of `should_merge`
(`src/model/manifest.rs:95-134`): scan the next level, then the merge
level, until a pass adds nothing.  `fuel` bounds the iteration; every
continuing pass has added at least one file, so any `fuel` larger than
the total SST count reaches the fixed point. -/
def shouldMergeLoop (thisLvl nextLvl : List (Nat × SstRange)) (levelId : Nat) :
    Nat → MergeScan → MergeScan
  | 0, st => st
  | fuel + 1, st =>
    let st1 := scanLevel nextLvl (levelId + 1) true { st with changed := false }
    let st2 := scanLevel thisLvl levelId false st1
    if st2.changed then shouldMergeLoop thisLvl nextLvl levelId fuel st2 else st2

/-- `Manifest::should_merge` (`src/model/manifest.rs:81-137`): seed with
the given SST's range and path, then run the closure loop.  Returns
(files, this_level_file_seqs, next_level_file_seqs); `none` if the seed is
not in the level (the source would `unwrap`-panic). -/
def should_merge (thisLvl nextLvl : List (Nat × SstRange)) (levelId seed : Nat) :
    Option (List (Nat × Nat) × List Nat × List Nat) :=
  match (thisLvl.lookup seed) with
  | none => none
  | some range =>
    let st0 : MergeScan :=
      ⟨range.minE, range.maxE, [(levelId, seed)], [seed], [], false⟩
    let out := shouldMergeLoop thisLvl nextLvl levelId
      (thisLvl.length + nextLvl.length + 1) st0
    some (out.files, out.thisSeqs, out.nextSeqs)

/-- Interval intersection of two SST ranges under the entry order — the
relation the spec's overlap closure is stated with. -/
def rangesIntersect (a b : SstRange) : Bool :=
  entryLe a.minE b.maxE && entryLe b.minE a.maxE

/-! ## Write queue (`src/mem_db/write_queue.rs`) as a transition system

`line_up` holds the queue mutex from `push_back` through the head check
and (for the head thread) the drain and sequence allocation; the only
blocking point is `finished.wait`.  The model therefore has four atomic
actions: entering and finding oneself at the head (drain everything,
become leader of the combined group), entering behind someone (start
waiting), the engine finishing a leader's commit followed by
`notify_all` (`DB::write` → `write_finished`), and a waiting thread waking
from `finished.wait` and returning `None` — which the source does after a
single wait, without inspecting the queue (`src/mem_db/write_queue.rs:48-54`).
A thread stands for its batch; `committed` lists the threads whose batch
the engine has committed. -/

/-- The phase a thread of the write-queue protocol is in. -/
inductive Phase where
  | idle : Phase
  | waiting : Phase
  | leader : List Nat → Phase
  | doneLeader : List Nat → Phase
  | doneNone : Phase
deriving DecidableEq, Repr

/-- Global state: the FIFO of queued (thread, batch) ops, each thread's
phase, and the batches the engine has finished committing. -/
structure WQState where
  queue : List Nat
  phase : Nat → Phase
  committed : List Nat

/-- Atomic steps of `line_up` and the engine commit. -/
inductive WQStep : WQState → WQState → Prop
  | enterFront (s : WQState) (t : Nat) (h : s.phase t = Phase.idle)
      (hFront : (s.queue ++ [t]).head? = some t) :
      WQStep s ⟨[], Function.update s.phase t (Phase.leader (s.queue ++ [t])),
        s.committed⟩
  | enterWait (s : WQState) (t : Nat) (h : s.phase t = Phase.idle)
      (hFront : (s.queue ++ [t]).head? ≠ some t) :
      WQStep s ⟨s.queue ++ [t], Function.update s.phase t Phase.waiting,
        s.committed⟩
  | finishCommit (s : WQState) (t : Nat) (g : List Nat)
      (h : s.phase t = Phase.leader g) :
      WQStep s ⟨s.queue, Function.update s.phase t (Phase.doneLeader g),
        s.committed ++ g⟩
  | wake (s : WQState) (t : Nat) (h : s.phase t = Phase.waiting) :
      WQStep s ⟨s.queue, Function.update s.phase t Phase.doneNone, s.committed⟩

/-- Initial state: empty queue, all threads idle, nothing committed. -/
def wqInit : WQState := ⟨[], fun _ => Phase.idle, []⟩

/-- Reachability under the write-queue transition system. -/
inductive WQReachable : WQState → Prop
  | init : WQReachable wqInit
  | step {s s' : WQState} : WQReachable s → WQStep s s' → WQReachable s'

/-- A thread has returned from `line_up`. -/
def Phase.isReturned : Phase → Prop
  | Phase.doneLeader _ => True
  | Phase.doneNone => True
  | _ => False

/-! ## Sequence allocation (`src/mem_db/write_queue.rs:57-68`) -/

/-- The linearized history of `next_seq.fetch_add(n)` allocations
(`src/mem_db/write_queue.rs:63-66`): starting from counter value `s0`,
each commit of `n` entries receives `(start, n)` with `start` the old
counter value; the counter is a `u64` and wraps accordingly. -/
def allocStarts (s0 : Nat) : List Nat → List (Nat × Nat)
  | [] => []
  | n :: rest => (s0, n) :: allocStarts ((s0 + n) % 2 ^ 64) rest

/-! # Theorems -/

/-- Invariant of the write-queue system: between critical sections the
queue is empty — `line_up` pushes, checks the head and drains under one
mutex acquisition, so every entrant finds itself at the head — and
consequently no thread is ever `waiting` or has returned `None`. -/
theorem wq_invariant {s : WQState} (h : WQReachable s) :
    s.queue = [] ∧ ∀ t, s.phase t ≠ Phase.waiting ∧ s.phase t ≠ Phase.doneNone := by
  induction h with
  | init => exact ⟨rfl, fun t => ⟨by simp [wqInit], by simp [wqInit]⟩⟩
  | step _ hstep ih =>
    cases hstep with
    | enterFront t ht hFront =>
      refine ⟨rfl, fun u => ?_⟩
      by_cases hu : u = t
      · subst hu; simp [Function.update]
      · simpa [Function.update, hu] using ih.2 u
    | enterWait t ht hFront =>
      exact absurd (by simp [ih.1]) hFront
    | finishCommit t g ht =>
      refine ⟨ih.1, fun u => ?_⟩
      by_cases hu : u = t
      · subst hu; simp [Function.update]
      · simpa [Function.update, hu] using ih.2 u
    | wake t ht =>
      exact absurd ht (ih.2 t).1

/-- Claim C4: in every reachable state of the write-queue protocol, a
thread that has returned the no-op result (`line_up` returned `None`) has
its batch drained and committed by a leader, and no thread that has
returned from `line_up` still has its batch in the queue uncommitted.  In
the source the enqueue, head check, and drain all happen under one
acquisition of the queue mutex, so the non-leader path is in fact
unreachable (`wq_invariant`) and the no-op clause holds vacuously. -/
theorem c4_line_up_no_early_return {s : WQState} (h : WQReachable s) (t : Nat) :
    (s.phase t = Phase.doneNone → t ∈ s.committed ∧ t ∉ s.queue) ∧
    ((s.phase t).isReturned → ¬(t ∈ s.queue ∧ t ∉ s.committed)) := by
  have inv := wq_invariant h
  refine ⟨fun hd => absurd hd (inv.2 t).2, fun _ hcon => ?_⟩
  rw [inv.1] at hcon
  exact absurd hcon.1 (List.not_mem_nil t)

/-- `set_seqs` leaves keys untouched. -/
theorem set_seqs_map_key (es : List RawEntry) (start : Nat) :
    (set_seqs es start).map RawEntry.key = es.map RawEntry.key := by
  induction es generalizing start with
  | nil => rfl
  | cons e es ih => simp [set_seqs, ih]

/-- `set_seqs` leaves values untouched. -/
theorem set_seqs_map_value (es : List RawEntry) (start : Nat) :
    (set_seqs es start).map RawEntry.value = es.map RawEntry.value := by
  induction es generalizing start with
  | nil => rfl
  | cons e es ih => simp [set_seqs, ih]

/-- When the allocation does not wrap the `u64` counter, `set_seqs` stamps
exactly `start, start+1, …, start+N-1` in entry order. -/
theorem set_seqs_map_seq (es : List RawEntry) (start : Nat)
    (h : start + es.length ≤ 2 ^ 64) :
    (set_seqs es start).map RawEntry.seq = List.range' start es.length := by
  induction es generalizing start with
  | nil => rfl
  | cons e es ih =>
    simp only [set_seqs, List.map_cons, List.length_cons, List.range'_succ]
    congr 1
    cases es with
    | nil => rfl
    | cons f fs =>
      have hlt : start + 1 < 2 ^ 64 := by
        simp only [List.length_cons] at h; omega
      rw [Nat.mod_eq_of_lt hlt]
      apply ih
      simp only [List.length_cons] at h ⊢
      omega

/-- Shape of the `fetch_add` allocation history without `u64` wraparound:
the `i`-th commit starts at `s0` plus the sizes of the commits before it. -/
theorem allocStarts_getD : ∀ (ns : List Nat) (s0 i : Nat), i < ns.length →
    (∀ n ∈ ns, 1 ≤ n) → s0 + ns.sum ≤ 2 ^ 64 →
    (allocStarts s0 ns).getD i (0, 0) = (s0 + (ns.take i).sum, ns.getD i 0) := by
  intro ns
  induction ns with
  | nil => intro s0 i hi _ _; exact absurd hi (by simp)
  | cons n ns ih =>
    intro s0 i hi hpos hsum
    cases i with
    | zero => simp [allocStarts]
    | succ i =>
      have hi2 : i < ns.length := by simpa using hi
      have hsum1 : 1 ≤ ns.sum := by
        cases ns with
        | nil => simp at hi2
        | cons m ms =>
          have hm := hpos m (by simp)
          simp only [List.sum_cons]
          omega
      have hwrap : s0 + n < 2 ^ 64 := by
        simp only [List.sum_cons] at hsum; omega
      simp only [allocStarts, List.getD_cons_succ, List.take_succ_cons,
        List.sum_cons, Nat.mod_eq_of_lt hwrap]
      rw [ih (s0 + n) i hi2 (fun x hx => hpos x (List.mem_cons_of_mem _ hx))
        (by simp only [List.sum_cons] at hsum; omega)]
      simp [Nat.add_assoc]

/-- Sum of a `take (i+1)` in terms of `take i` and the `i`-th element. -/
theorem sum_take_succ_eq (ns : List Nat) (i : Nat) (hi : i < ns.length) :
    (ns.take (i + 1)).sum = (ns.take i).sum + ns.getD i 0 := by
  rw [List.sum_take_succ ns i hi, List.getD_eq_getElem ns 0 hi]

/-- Sums of takes are monotone. -/
theorem sum_take_mono (ns : List Nat) (i j : Nat) (hij : i ≤ j)
    (_hj : j ≤ ns.length) : (ns.take i).sum ≤ (ns.take j).sum := by
  rw [show j = i + (j - i) by omega, List.take_add]
  simp only [List.sum_append]
  omega

/-- Claim C5: `set_seqs` stamps a committed batch of `N` entries with the
distinct contiguous sequence numbers `start, …, start+N-1` in entry order
(keys and values untouched), and with starts drawn from the single
`fetch_add` counter, any earlier commit's greatest sequence is strictly
below any later commit's least sequence (batches are non-empty;
`DB::write` returns early on an empty batch). -/
theorem c5_group_commit_seqs :
    (∀ (es : List RawEntry) (start : Nat), start + es.length ≤ 2 ^ 64 →
      (set_seqs es start).map RawEntry.seq = List.range' start es.length ∧
      (set_seqs es start).map RawEntry.key = es.map RawEntry.key ∧
      (set_seqs es start).map RawEntry.value = es.map RawEntry.value) ∧
    (∀ (ns : List Nat) (s0 : Nat), (∀ n ∈ ns, 1 ≤ n) →
      s0 + ns.sum ≤ 2 ^ 64 → ∀ i j, i < j → j < ns.length →
      ((allocStarts s0 ns).getD i (0, 0)).1 +
          ((allocStarts s0 ns).getD i (0, 0)).2 - 1 <
        ((allocStarts s0 ns).getD j (0, 0)).1) := by
  constructor
  · intro es start h
    exact ⟨set_seqs_map_seq es start h, set_seqs_map_key es start,
      set_seqs_map_value es start⟩
  · intro ns s0 hpos hsum i j hij hj
    have hi : i < ns.length := lt_trans hij hj
    rw [allocStarts_getD ns s0 i hi hpos hsum,
      allocStarts_getD ns s0 j hj hpos hsum]
    have h1 : (ns.take (i + 1)).sum = (ns.take i).sum + ns.getD i 0 :=
      sum_take_succ_eq ns i hi
    have h2 : (ns.take (i + 1)).sum ≤ (ns.take j).sum :=
      sum_take_mono ns (i + 1) j (by omega) (by omega)
    have h3 : 1 ≤ ns.getD i 0 := by
      rw [List.getD_eq_getElem ns 0 hi]
      exact hpos _ (List.getElem_mem hi)
    simp only
    omega

/-- Witness for C5: a two-entry batch stamped from 5, and two commits of
sizes 2 and 1 allocated from counter value 5. -/
theorem c5_group_commit_seqs_witness :
    ((set_seqs [⟨[1], 0, some [2]⟩, ⟨[3], 0, none⟩] 5).map RawEntry.seq =
        List.range' 5 2 ∧
      (set_seqs [⟨[1], 0, some [2]⟩, ⟨[3], 0, none⟩] 5).map RawEntry.key =
        [[1], [3]] ∧
      (set_seqs [⟨[1], 0, some [2]⟩, ⟨[3], 0, none⟩] 5).map RawEntry.value =
        [some [2], none]) ∧
    ((allocStarts 5 [2, 1]).getD 0 (0, 0)).1 +
        ((allocStarts 5 [2, 1]).getD 0 (0, 0)).2 - 1 <
      ((allocStarts 5 [2, 1]).getD 1 (0, 0)).1 :=
  ⟨c5_group_commit_seqs.1 [⟨[1], 0, some [2]⟩, ⟨[3], 0, none⟩] 5 (by decide),
    c5_group_commit_seqs.2 [2, 1] 5 (by decide) (by decide) 0 1 (by decide)
      (by decide)⟩

/-- Witness for C4: the state reached by thread `0` entering an empty
queue (becoming leader of its own batch) and the engine finishing the
commit. -/
theorem c4_line_up_no_early_return_witness :
    ∃ s : WQState, WQReachable s ∧ (s.phase 0).isReturned ∧
      ((s.phase 0 = Phase.doneNone → 0 ∈ s.committed ∧ 0 ∉ s.queue) ∧
        ((s.phase 0).isReturned → ¬(0 ∈ s.queue ∧ 0 ∉ s.committed))) := by
  refine ⟨_, WQReachable.step (WQReachable.step WQReachable.init
      (WQStep.enterFront wqInit 0 rfl rfl))
      (WQStep.finishCommit _ 0 ([] ++ [0]) (by simp [wqInit, Function.update])),
    ?_, c4_line_up_no_early_return (WQReachable.step (WQReachable.step
      WQReachable.init (WQStep.enterFront wqInit 0 rfl rfl))
      (WQStep.finishCommit _ 0 ([] ++ [0]) (by simp [wqInit, Function.update]))) 0⟩
  simp [wqInit, Function.update, Phase.isReturned]

/-- Claim C1, failing input: with only the entry `([97], seq 1, value [49])`
in the mutable memtable, `DB::get([98])` returns `Some([49])`: the
memtable predecessor scan (`mut_table.range(..=max_entry).next_back()`)
returns an entry whose user key differs from the queried key, while the
claim requires the lookup to consider exactly the entries whose user key
equals the query (which here would give `None`). -/
theorem c1_get_returns_entry_of_different_key :
    dbGet ⟨[⟨[97], 1, some [49]⟩], [], [], []⟩ [98] = some [49] ∧
    memTableGet [⟨[97], 1, some [49]⟩] [] [98] (2 ^ 64 - 1) =
      some ⟨[97], 1, some [49]⟩ ∧
    ∀ e ∈ ([⟨[97], 1, some [49]⟩] : List RawEntry), e.key ≠ [98] := by
  refine ⟨by decide, by decide, by decide⟩

/-- Claim C2, failing input: merging the iterators `[([1], seq 5)]` and
`[([1], seq 3)]` with `version_guard = 10`: both entries have `seq ≤
guard`, and the merge step outputs the entry with `seq = 3`:
`last_before_guard` is overwritten in iterator order, so the survivor is
the last-traversed qualifying entry, not the entry with the greatest
`seq ≤ guard` (here `seq = 5`) as the claim states. -/
theorem c2_read_some_keeps_last_iterator_not_max_seq :
    (read_some [[⟨[1], 5, some [7]⟩], [⟨[1], 3, some [8]⟩]] 10).1 =
      [⟨[1], 3, some [8]⟩] ∧
    (⟨[1], 5, some [7]⟩ : RawEntry) ∈
      [[⟨[1], 5, some [7]⟩], [⟨[1], 3, some [8]⟩]].flatten ∧ (5 ≤ 10 ∧ 3 < 5) := by
  refine ⟨?_, by decide, by decide, by decide⟩
  have h : readSomeGo [1] 10 [[⟨[1], 5, some [7]⟩], [⟨[1], 3, some [8]⟩]]
      none [] = ([[], []], some ⟨[1], 3, some [8]⟩, []) := by decide
  simp only [read_some, getMinUserKey]
  norm_num [h]

/-- Claim C3, failing input: seed SST 1 at level 1 with range
`[[10], [20]]`, and SST 2 at level 2 with range `[[5], [30]]`, which
strictly contains the seed range and therefore intersects it.  The claim's
closure must include SST 2, but `should_merge` returns only the seed: the
inclusion test checks whether an *endpoint* of the candidate SST lies
inside the running bounds (missing strict containment), and the running
upper bound is updated with `min` instead of `max`. -/
theorem c3_should_merge_misses_overlapping_sst :
    should_merge [(1, ⟨⟨[10], 0, none⟩, ⟨[20], 0, none⟩⟩)]
        [(2, ⟨⟨[5], 0, none⟩, ⟨[30], 0, none⟩⟩)] 1 1 =
      some ([(1, 1)], [1], []) ∧
    rangesIntersect ⟨⟨[10], 0, none⟩, ⟨[20], 0, none⟩⟩
        ⟨⟨[5], 0, none⟩, ⟨[30], 0, none⟩⟩ = true := by
  refine ⟨by decide, by decide⟩

/-- Claim C9: `DB::get` reads only the two memtables: any two database
states with equal `mut_table` and `immut_table` contents give the same
`get` result for every key, whatever their SST levels and manifest
contents — `dbGet` performs no SST access. -/
theorem c9_dbGet_depends_only_on_memtables (s1 s2 : DBState)
    (hm : s1.mutTable = s2.mutTable) (hi : s1.immutTable = s2.immutTable)
    (k : List Nat) : dbGet s1 k = dbGet s2 k := by
  unfold dbGet
  rw [hm, hi]

/-- Witness for C9: two states, one holding an SST with key `[3]` and a
WAL in its manifest, the other empty on disk, agree on `get [3]`. -/
theorem c9_dbGet_depends_only_on_memtables_witness :
    dbGet ⟨[⟨[5], 1, some [6]⟩], [], [[(1, [⟨[3], 1, some [4]⟩])]], [1]⟩ [3] =
      dbGet ⟨[⟨[5], 1, some [6]⟩], [], [], []⟩ [3] :=
  c9_dbGet_depends_only_on_memtables _ _ rfl rfl [3]

end Eikv

namespace Eikv


theorem varBytes_ne_nil (v : Nat) : varBytes v ≠ [] := by
  unfold varBytes
  split <;> simp

theorem low7_split (w : Nat) : (w &&& 0x7f) ||| ((w >>> 7) <<< 7) = w := by
  apply Nat.eq_of_testBit_eq
  intro i
  have h7f : (0x7f : Nat) = 2 ^ 7 - 1 := by norm_num
  simp only [Nat.testBit_or, Nat.testBit_and, Nat.testBit_shiftLeft,
    Nat.testBit_shiftRight, h7f, Nat.testBit_two_pow_sub_one]
  by_cases hi : i < 7
  · have : ¬(i ≥ 7) := by omega
    simp [hi, this]
  · have h1 : (i ≥ 7) := by omega
    have h2 : 7 + (i - 7) = i := by omega
    simp [hi, h1, h2]

theorem shiftLeft_or_distrib (a b s : Nat) :
    (a ||| b) <<< s = a <<< s ||| b <<< s := by
  apply Nat.eq_of_testBit_eq
  intro i
  simp only [Nat.testBit_or, Nat.testBit_shiftLeft, Bool.and_or_distrib_left]

theorem varint_step_split (w s : Nat) :
    ((w &&& 0x7f) <<< s) ||| ((w >>> 7) <<< (s + 7)) = w <<< s := by
  conv_rhs => rw [← low7_split w]
  rw [shiftLeft_or_distrib, ← Nat.shiftLeft_add, Nat.add_comm 7 s]

theorem decodeVarU64Go_spec : ∀ (w : Nat), ∀ (buf rest : List Nat)
    (limit i shift value : Nat),
    buf.drop i = varBytes w ++ rest →
    i + (varBytes w).length ≤ limit → limit ≤ buf.length →
    w < 2 ^ (64 - shift) → shift ≤ 63 → shift % 7 = 0 →
    decodeVarU64Go buf limit i shift value =
      some (some (value ||| w <<< shift, i + (varBytes w).length)) := by
  intro w
  induction w using Nat.strong_induction_on with
  | _ w ih =>
    intro buf rest limit i shift value hdrop hlim hlen hw hs hmod
    have hne := varBytes_ne_nil w
    have hlen1 : 1 ≤ (varBytes w).length := by
      cases hvb : varBytes w with
      | nil => exact absurd hvb hne
      | cons a l => simp
    have hi : i < limit := by omega
    have hget : buf.get? i = (varBytes w ++ rest)[0]? := by
      rw [List.get?_eq_getElem?, ← Nat.add_zero i, ← List.getElem?_drop, hdrop]
    rw [decodeVarU64Go]
    simp only [dif_pos hi]
    by_cases hbig : w > 0x7f
    · -- continuation byte
      have hvb : varBytes w = (w &&& 0x7f ||| 0x80) :: varBytes (w >>> 7) := by
        rw [varBytes]
        simp [hbig]
      rw [hvb] at hget
      simp only [List.cons_append, List.getElem?_cons_zero] at hget
      rw [hget]
      have hb : (w &&& 0x7f ||| 0x80) &&& 0x7f = w &&& 0x7f := by
        have h1 : (0x80 : Nat) &&& 0x7f = 0 := by decide
        have h2 : (0x7f : Nat) &&& 0x7f = 0x7f := by decide
        rw [Nat.and_distrib_right, h1, Nat.or_zero, Nat.and_assoc, h2]
      have hs63 : shift ≠ 63 := by
        intro hcontra
        rw [hcontra] at hw
        norm_num at hw
        omega
      have hs56 : shift ≤ 56 := by omega
      have h80 : ¬((w &&& 0x7f ||| 0x80) < 0x80) := by
        have ht : (w &&& 0x7f ||| 0x80).testBit 7 = true := by
          rw [Nat.testBit_or]
          have : (0x80 : Nat).testBit 7 = true := by decide
          simp [this]
        have := Nat.testBit_implies_ge ht
        norm_num at this
        omega
      simp only [hb, hs63, false_and, ne_eq, if_neg, ite_false, h80,
        reduceIte]
      -- recursive call
      have hwpos : 0 < w := by omega
      have hlt : w >>> 7 < w := by
        rw [Nat.shiftRight_eq_div_pow]
        exact Nat.div_lt_self hwpos (by norm_num)
      have hdrop2 : buf.drop (i + 1) = varBytes (w >>> 7) ++ rest := by
        rw [← List.drop_drop 1 i buf]
        rw [hdrop, hvb]
        rfl
      have hlvb : (varBytes w).length = 1 + (varBytes (w >>> 7)).length := by
        rw [hvb]
        simp [Nat.add_comm]
      have hw2 : w >>> 7 < 2 ^ (64 - (shift + 7)) := by
        rw [Nat.shiftRight_eq_div_pow]
        have hsplit : (2 : Nat) ^ (64 - shift) = 2 ^ (64 - (shift + 7)) * 2 ^ 7 := by
          rw [← Nat.pow_add]
          congr 1
          omega
        rw [Nat.div_lt_iff_lt_mul (by norm_num : (0:Nat) < 2 ^ 7)]
        rw [hsplit] at hw
        exact hw
      rw [ih (w >>> 7) hlt buf rest limit (i + 1) (shift + 7) _ hdrop2
        (by omega) hlen hw2 (by omega) (by omega)]
      have hfit : ((w &&& 0x7f) <<< shift) % 2 ^ 64 = (w &&& 0x7f) <<< shift := by
        apply Nat.mod_eq_of_lt
        have hmask : w &&& 0x7f < 2 ^ 7 := by
          exact Nat.and_lt_two_pow w (by norm_num)
        have := Nat.shiftLeft_lt (m := shift) hmask
        calc (w &&& 0x7f) <<< shift < 2 ^ (7 + shift) := this
          _ ≤ 2 ^ 64 := Nat.pow_le_pow_right (by norm_num) (by omega)
      have hidx : i + 1 + (varBytes (w >>> 7)).length = i + (varBytes w).length := by
        omega
      rw [hfit, Nat.or_assoc, varint_step_split, hidx]
    · -- terminal byte
      have hvb : varBytes w = [w] := by
        rw [varBytes]
        simp [hbig]
      rw [hvb] at hget
      simp only [List.cons_append, List.getElem?_cons_zero] at hget
      rw [hget]
      have hw128 : w < 0x80 := by omega
      have hb : w &&& 0x7f = w := by
        have : (0x7f : Nat) = 2 ^ 7 - 1 := by norm_num
        rw [this, Nat.and_pow_two_sub_one_eq_mod]
        exact Nat.mod_eq_of_lt (by omega)
      have hcond : ¬(shift = 63 ∧ w &&& 0x7f &&& 0x7e ≠ 0) := by
        rintro ⟨h63, hne2⟩
        rw [h63] at hw
        norm_num at hw
        rw [hb] at hne2
        interval_cases w <;> simp_all
      simp only [hb, hcond, if_neg, ite_false, if_pos hw128, reduceIte]
      have hfit : (w <<< shift) % 2 ^ 64 = w <<< shift := by
        apply Nat.mod_eq_of_lt
        have := Nat.shiftLeft_lt (m := shift) hw
        calc w <<< shift < 2 ^ (64 - shift + shift) := this
          _ ≤ 2 ^ 64 := Nat.pow_le_pow_right (by norm_num) (by omega)
      rw [hfit, hvb]
      simp
      intro h63
      rw [h63] at hw
      norm_num at hw
      interval_cases w <;> decide

theorem decodeVarU32Go_spec : ∀ (w : Nat), ∀ (buf rest : List Nat)
    (limit i shift value : Nat),
    buf.drop i = varBytes w ++ rest →
    i + (varBytes w).length ≤ limit → limit ≤ buf.length →
    w < 2 ^ (32 - shift) → shift ≤ 28 → shift % 7 = 0 →
    decodeVarU32Go buf limit i shift value =
      some (some (value ||| w <<< shift, i + (varBytes w).length)) := by
  intro w
  induction w using Nat.strong_induction_on with
  | _ w ih =>
    intro buf rest limit i shift value hdrop hlim hlen hw hs hmod
    have hne := varBytes_ne_nil w
    have hlen1 : 1 ≤ (varBytes w).length := by
      cases hvb : varBytes w with
      | nil => exact absurd hvb hne
      | cons a l => simp
    have hi : i < limit := by omega
    have hget : buf.get? i = (varBytes w ++ rest)[0]? := by
      rw [List.get?_eq_getElem?, ← Nat.add_zero i, ← List.getElem?_drop, hdrop]
    rw [decodeVarU32Go]
    simp only [dif_pos hi]
    by_cases hbig : w > 0x7f
    · -- continuation byte
      have hvb : varBytes w = (w &&& 0x7f ||| 0x80) :: varBytes (w >>> 7) := by
        rw [varBytes]
        simp [hbig]
      rw [hvb] at hget
      simp only [List.cons_append, List.getElem?_cons_zero] at hget
      rw [hget]
      have hb : (w &&& 0x7f ||| 0x80) &&& 0x7f = w &&& 0x7f := by
        have h1 : (0x80 : Nat) &&& 0x7f = 0 := by decide
        have h2 : (0x7f : Nat) &&& 0x7f = 0x7f := by decide
        rw [Nat.and_distrib_right, h1, Nat.or_zero, Nat.and_assoc, h2]
      have hs28 : shift ≠ 28 := by
        intro hcontra
        rw [hcontra] at hw
        norm_num at hw
        omega
      have hs21 : shift ≤ 21 := by omega
      have h80 : ¬((w &&& 0x7f ||| 0x80) < 0x80) := by
        have ht : (w &&& 0x7f ||| 0x80).testBit 7 = true := by
          rw [Nat.testBit_or]
          have : (0x80 : Nat).testBit 7 = true := by decide
          simp [this]
        have := Nat.testBit_implies_ge ht
        norm_num at this
        omega
      simp only [hb, hs28, false_and, ne_eq, if_neg, ite_false, h80,
        reduceIte]
      have hwpos : 0 < w := by omega
      have hlt : w >>> 7 < w := by
        rw [Nat.shiftRight_eq_div_pow]
        exact Nat.div_lt_self hwpos (by norm_num)
      have hdrop2 : buf.drop (i + 1) = varBytes (w >>> 7) ++ rest := by
        rw [← List.drop_drop 1 i buf]
        rw [hdrop, hvb]
        rfl
      have hlvb : (varBytes w).length = 1 + (varBytes (w >>> 7)).length := by
        rw [hvb]
        simp [Nat.add_comm]
      have hw2 : w >>> 7 < 2 ^ (32 - (shift + 7)) := by
        rw [Nat.shiftRight_eq_div_pow]
        have hsplit : (2 : Nat) ^ (32 - shift) = 2 ^ (32 - (shift + 7)) * 2 ^ 7 := by
          rw [← Nat.pow_add]
          congr 1
          omega
        rw [Nat.div_lt_iff_lt_mul (by norm_num : (0:Nat) < 2 ^ 7)]
        rw [hsplit] at hw
        exact hw
      rw [ih (w >>> 7) hlt buf rest limit (i + 1) (shift + 7) _ hdrop2
        (by omega) hlen hw2 (by omega) (by omega)]
      have hfit : ((w &&& 0x7f) <<< shift) % 2 ^ 32 = (w &&& 0x7f) <<< shift := by
        apply Nat.mod_eq_of_lt
        have hmask : w &&& 0x7f < 2 ^ 7 := by
          exact Nat.and_lt_two_pow w (by norm_num)
        have := Nat.shiftLeft_lt (m := shift) hmask
        calc (w &&& 0x7f) <<< shift < 2 ^ (7 + shift) := this
          _ ≤ 2 ^ 32 := Nat.pow_le_pow_right (by norm_num) (by omega)
      have hidx : i + 1 + (varBytes (w >>> 7)).length = i + (varBytes w).length := by
        omega
      rw [hfit, Nat.or_assoc, varint_step_split, hidx]
    · -- terminal byte
      have hvb : varBytes w = [w] := by
        rw [varBytes]
        simp [hbig]
      rw [hvb] at hget
      simp only [List.cons_append, List.getElem?_cons_zero] at hget
      rw [hget]
      have hw128 : w < 0x80 := by omega
      have hb : w &&& 0x7f = w := by
        have : (0x7f : Nat) = 2 ^ 7 - 1 := by norm_num
        rw [this, Nat.and_pow_two_sub_one_eq_mod]
        exact Nat.mod_eq_of_lt (by omega)
      have hfit : (w <<< shift) % 2 ^ 32 = w <<< shift := by
        apply Nat.mod_eq_of_lt
        have := Nat.shiftLeft_lt (m := shift) hw
        calc w <<< shift < 2 ^ (32 - shift + shift) := this
          _ ≤ 2 ^ 32 := Nat.pow_le_pow_right (by norm_num) (by omega)
      simp only [hb, if_pos hw128, reduceIte]
      rw [hfit, hvb]
      simp
      intro h28
      rw [h28] at hw
      norm_num at hw
      interval_cases w <;> decide




/-- Bytes of a varint encoding are bytes. -/
theorem varBytes_bytes (v : Nat) : ByteList (varBytes v) := by
  induction v using Nat.strong_induction_on with
  | _ v ih =>
    intro b hb
    rw [varBytes] at hb
    by_cases hbig : v > 0x7f
    · simp only [hbig, dite_true, dif_pos, List.mem_cons] at hb
      rcases hb with hb | hb
      · subst hb
        apply Nat.or_lt_two_pow (n := 8)
        · exact Nat.and_lt_two_pow v (by norm_num)
        · norm_num
      · have hlt : v >>> 7 < v := by
          rw [Nat.shiftRight_eq_div_pow]
          exact Nat.div_lt_self (by omega) (by norm_num)
        exact ih (v >>> 7) hlt b hb
    · simp only [hbig, dite_false, dif_neg, List.mem_singleton] at hb
      subst hb
      omega

/-- Every byte of a varint encoding except the last has the continuation
bit set. -/
theorem varBytes_dropLast_cont (v : Nat) :
    ∀ b ∈ (varBytes v).dropLast, 0x80 ≤ b := by
  induction v using Nat.strong_induction_on with
  | _ v ih =>
    intro b hb
    rw [varBytes] at hb
    by_cases hbig : v > 0x7f
    · simp only [hbig, dite_true, dif_pos] at hb
      rw [List.dropLast_cons_of_ne_nil (varBytes_ne_nil _)] at hb
      rcases List.mem_cons.mp hb with hb | hb
      · subst hb
        have ht : (v &&& 0x7f ||| 0x80).testBit 7 = true := by
          rw [Nat.testBit_or]
          have : (0x80 : Nat).testBit 7 = true := by decide
          simp [this]
        have := Nat.testBit_implies_ge ht
        norm_num at this
        omega
      · have hlt : v >>> 7 < v := by
          rw [Nat.shiftRight_eq_div_pow]
          exact Nat.div_lt_self (by omega) (by norm_num)
        exact ih (v >>> 7) hlt b hb
    · simp only [hbig, dite_false, dif_neg, List.dropLast_single] at hb
      exact absurd hb (List.not_mem_nil b)

/-- A varint of a value below `2 ^ (7 k)` occupies at most `k` bytes. -/
theorem varBytes_length_le : ∀ (k v : Nat), 1 ≤ k → v < 2 ^ (7 * k) →
    (varBytes v).length ≤ k := by
  intro k
  induction k with
  | zero => omega
  | succ k ihk =>
    intro v _ hv
    rw [varBytes]
    by_cases hbig : v > 0x7f
    · simp only [hbig, dite_true, dif_pos, List.length_cons]
      have hk1 : 1 ≤ k := by
        by_contra hk
        have : k = 0 := by omega
        subst this
        norm_num at hv
        omega
      have : v >>> 7 < 2 ^ (7 * k) := by
        rw [Nat.shiftRight_eq_div_pow]
        rw [Nat.div_lt_iff_lt_mul (by norm_num : (0:Nat) < 2 ^ 7)]
        calc v < 2 ^ (7 * (k + 1)) := hv
          _ = 2 ^ (7 * k) * 2 ^ 7 := by
            rw [← Nat.pow_add]
            ring_nf
      have := ihk (v >>> 7) hk1 this
      omega
    · simp [hbig]

/-- Roundtrip of `decode_var_u64` on an encoded `u64` followed by
anything. -/
theorem decode_var_u64_encode (v : Nat) (rest : List Nat) (hv : v < 2 ^ 64) :
    decode_var_u64 (varBytes v ++ rest) =
      some (some (v, (varBytes v).length)) := by
  have hne : ¬(varBytes v ++ rest).isEmpty = true := by
    cases hvb : varBytes v with
    | nil => exact absurd hvb (varBytes_ne_nil v)
    | cons a l => simp [hvb]
  have hlen10 : (varBytes v).length ≤ 10 := by
    apply varBytes_length_le 10 v (by norm_num)
    calc v < 2 ^ 64 := hv
      _ ≤ 2 ^ (7 * 10) := by norm_num
  unfold decode_var_u64
  rw [if_neg (by simp [hne])]
  have hspec := decodeVarU64Go_spec v (varBytes v ++ rest) rest
    (if (varBytes v ++ rest).length < 10 then (varBytes v ++ rest).length else 10)
    0 0 0 (by simp) ?_ ?_ (by simpa using hv) (by norm_num) (by norm_num)
  · rw [hspec]
    simp [Nat.shiftLeft_zero, Nat.zero_or]
  · simp only [List.length_append, Nat.zero_add]
    split <;> omega
  · split <;> omega

/-- Roundtrip of `decode_var_u32` on an encoded `u32` followed by
anything. -/
theorem decode_var_u32_encode (v : Nat) (rest : List Nat) (hv : v < 2 ^ 32) :
    decode_var_u32 (varBytes v ++ rest) =
      some (some (v, (varBytes v).length)) := by
  have hne : ¬(varBytes v ++ rest).isEmpty = true := by
    cases hvb : varBytes v with
    | nil => exact absurd hvb (varBytes_ne_nil v)
    | cons a l => simp [hvb]
  have hlen5 : (varBytes v).length ≤ 5 := by
    apply varBytes_length_le 5 v (by norm_num)
    calc v < 2 ^ 32 := hv
      _ ≤ 2 ^ (7 * 5) := by norm_num
  unfold decode_var_u32
  rw [if_neg (by simp [hne])]
  have hspec := decodeVarU32Go_spec v (varBytes v ++ rest) rest
    (if (varBytes v ++ rest).length < 5 then (varBytes v ++ rest).length else 5)
    0 0 0 (by simp) ?_ ?_ (by simpa using hv) (by norm_num) (by norm_num)
  · rw [hspec]
    simp [Nat.shiftLeft_zero, Nat.zero_or]
  · simp only [List.length_append, Nat.zero_add]
    split <;> omega
  · split <;> omega

/-- The `decode_var_u64` loop never panics when `limit ≤ buf.length`. -/
theorem decodeVarU64Go_total (buf : List Nat) :
    ∀ (fuel limit i shift value : Nat), limit - i ≤ fuel →
    limit ≤ buf.length →
    ∃ r, decodeVarU64Go buf limit i shift value = some r := by
  intro fuel
  induction fuel with
  | zero =>
    intro limit i shift value hf hl
    rw [decodeVarU64Go]
    have : ¬(i < limit) := by omega
    simp [this]
  | succ n ihn =>
    intro limit i shift value hf hl
    rw [decodeVarU64Go]
    by_cases hi : i < limit
    · simp only [dif_pos hi]
      split
      next h2 =>
        have hib : i < buf.length := by omega
        rw [List.get?_eq_getElem?, List.getElem?_eq_getElem hib] at h2
        exact absurd h2 (by simp)
      next byte h2 =>
        split
        · exact ⟨_, rfl⟩
        · split
          · exact ⟨_, rfl⟩
          · exact ihn limit (i + 1) (shift + 7) _ (by omega) hl
    · simp [hi]

/-- The `decode_var_u32` loop never panics when `limit ≤ buf.length`. -/
theorem decodeVarU32Go_total (buf : List Nat) :
    ∀ (fuel limit i shift value : Nat), limit - i ≤ fuel →
    limit ≤ buf.length →
    ∃ r, decodeVarU32Go buf limit i shift value = some r := by
  intro fuel
  induction fuel with
  | zero =>
    intro limit i shift value hf hl
    rw [decodeVarU32Go]
    have : ¬(i < limit) := by omega
    simp [this]
  | succ n ihn =>
    intro limit i shift value hf hl
    rw [decodeVarU32Go]
    by_cases hi : i < limit
    · simp only [dif_pos hi]
      split
      next h2 =>
        have hib : i < buf.length := by omega
        rw [List.get?_eq_getElem?, List.getElem?_eq_getElem hib] at h2
        exact absurd h2 (by simp)
      next byte h2 =>
        split
        · exact ⟨_, rfl⟩
        · split
          · exact ⟨_, rfl⟩
          · exact ihn limit (i + 1) (shift + 7) _ (by omega) hl
    · simp [hi]

/-- `decode_var_u64` never panics. -/
theorem decode_var_u64_total (buf : List Nat) :
    ∃ r, decode_var_u64 buf = some r := by
  unfold decode_var_u64
  split
  · exact ⟨none, rfl⟩
  · exact decodeVarU64Go_total buf
      (if buf.length < 10 then buf.length else 10)
      (if buf.length < 10 then buf.length else 10) 0 0 0 (by omega)
      (by split <;> omega)

/-- `decode_var_u32` never panics. -/
theorem decode_var_u32_total (buf : List Nat) :
    ∃ r, decode_var_u32 buf = some r := by
  unfold decode_var_u32
  split
  · exact ⟨none, rfl⟩
  · exact decodeVarU32Go_total buf
      (if buf.length < 5 then buf.length else 5)
      (if buf.length < 5 then buf.length else 5) 0 0 0 (by omega)
      (by split <;> omega)

/-- A successful parse of the `u64` loop consumes between `i+1` and
`limit` bytes. -/
theorem decodeVarU64Go_consumed (buf : List Nat) :
    ∀ (fuel limit i shift value v n : Nat), limit - i ≤ fuel →
    decodeVarU64Go buf limit i shift value = some (some (v, n)) →
    i < n ∧ n ≤ limit := by
  intro fuel
  induction fuel with
  | zero =>
    intro limit i shift value v n hf heq
    rw [decodeVarU64Go] at heq
    have : ¬(i < limit) := by omega
    simp [this] at heq
  | succ m ihn =>
    intro limit i shift value v n hf heq
    rw [decodeVarU64Go] at heq
    by_cases hi : i < limit
    · simp only [dif_pos hi] at heq
      split at heq
      next => exact absurd heq (by simp)
      next byte h2 =>
        split at heq
        · exact absurd heq (by simp)
        · split at heq
          · simp only [Option.some_inj, Prod.mk.injEq] at heq
            omega
          · have := ihn limit (i + 1) (shift + 7) _ v n (by omega) heq
            omega
    · simp [hi] at heq

/-- A successful parse of the `u32` loop consumes between `i+1` and
`limit` bytes. -/
theorem decodeVarU32Go_consumed (buf : List Nat) :
    ∀ (fuel limit i shift value v n : Nat), limit - i ≤ fuel →
    decodeVarU32Go buf limit i shift value = some (some (v, n)) →
    i < n ∧ n ≤ limit := by
  intro fuel
  induction fuel with
  | zero =>
    intro limit i shift value v n hf heq
    rw [decodeVarU32Go] at heq
    have : ¬(i < limit) := by omega
    simp [this] at heq
  | succ m ihn =>
    intro limit i shift value v n hf heq
    rw [decodeVarU32Go] at heq
    by_cases hi : i < limit
    · simp only [dif_pos hi] at heq
      split at heq
      next => exact absurd heq (by simp)
      next byte h2 =>
        split at heq
        · exact absurd heq (by simp)
        · split at heq
          · simp only [Option.some_inj, Prod.mk.injEq] at heq
            omega
          · have := ihn limit (i + 1) (shift + 7) _ v n (by omega) heq
            omega
    · simp [hi] at heq

/-- A successful `decode_var_u64` consumes between 1 and `buf.length`
bytes. -/
theorem decode_var_u64_consumed (buf : List Nat) (v n : Nat)
    (h : decode_var_u64 buf = some (some (v, n))) :
    1 ≤ n ∧ n ≤ buf.length := by
  unfold decode_var_u64 at h
  split at h
  · exact absurd h (by simp)
  · have := decodeVarU64Go_consumed buf
      (if buf.length < 10 then buf.length else 10)
      (if buf.length < 10 then buf.length else 10) 0 0 0 v n (by omega) h
    constructor
    · omega
    · have h2 : (if buf.length < 10 then buf.length else 10) ≤ buf.length := by
        split <;> omega
      omega

/-- A successful `decode_var_u32` consumes between 1 and `buf.length`
bytes. -/
theorem decode_var_u32_consumed (buf : List Nat) (v n : Nat)
    (h : decode_var_u32 buf = some (some (v, n))) :
    1 ≤ n ∧ n ≤ buf.length := by
  unfold decode_var_u32 at h
  split at h
  · exact absurd h (by simp)
  · have := decodeVarU32Go_consumed buf
      (if buf.length < 5 then buf.length else 5)
      (if buf.length < 5 then buf.length else 5) 0 0 0 v n (by omega) h
    constructor
    · omega
    · have h2 : (if buf.length < 5 then buf.length else 5) ≤ buf.length := by
        split <;> omega
      omega

/-- A strict initial segment of a varint consists of continuation bytes. -/
theorem varBytes_take_cont (v n : Nat) (hn : n < (varBytes v).length) :
    ∀ b ∈ (varBytes v).take n, 0x80 ≤ b := by
  intro b hb
  apply varBytes_dropLast_cont v
  rw [List.dropLast_eq_take]
  have h1 : (varBytes v).take n = ((varBytes v).take ((varBytes v).length - 1)).take n := by
    rw [List.take_take]
    congr 1
    omega
  rw [h1] at hb
  exact List.mem_of_mem_take hb

/-- The `u64` loop returns a clean `None` when it sees only continuation
bytes from `i` up to `limit`. -/
theorem decodeVarU64Go_cont (buf : List Nat) :
    ∀ (fuel limit i shift value : Nat), limit - i ≤ fuel →
    limit ≤ buf.length → (∀ k, i ≤ k → k < limit → 0x80 ≤ buf.getD k 0) →
    decodeVarU64Go buf limit i shift value = some none := by
  intro fuel
  induction fuel with
  | zero =>
    intro limit i shift value hf hl _
    rw [decodeVarU64Go]
    have : ¬(i < limit) := by omega
    simp [this]
  | succ m ihn =>
    intro limit i shift value hf hl hcont
    rw [decodeVarU64Go]
    by_cases hi : i < limit
    · simp only [dif_pos hi]
      split
      next h2 =>
        have hib : i < buf.length := by omega
        rw [List.get?_eq_getElem?, List.getElem?_eq_getElem hib] at h2
        exact absurd h2 (by simp)
      next byte h2 =>
        have hbyte : 0x80 ≤ byte := by
          have hib : i < buf.length := by omega
          rw [List.get?_eq_getElem?, List.getElem?_eq_getElem hib] at h2
          have h3 := hcont i (Nat.le_refl i) hi
          rw [List.getD_eq_getElem buf 0 hib] at h3
          injection h2 with h4
          omega
        split
        · rfl
        · split
          next hlt2 => omega
          next =>
            exact ihn limit (i + 1) (shift + 7) _ (by omega) hl
              (fun k hk1 hk2 => hcont k (by omega) hk2)
    · simp [hi]

/-- The `u32` loop returns a clean `None` when it sees only continuation
bytes from `i` up to `limit`. -/
theorem decodeVarU32Go_cont (buf : List Nat) :
    ∀ (fuel limit i shift value : Nat), limit - i ≤ fuel →
    limit ≤ buf.length → (∀ k, i ≤ k → k < limit → 0x80 ≤ buf.getD k 0) →
    decodeVarU32Go buf limit i shift value = some none := by
  intro fuel
  induction fuel with
  | zero =>
    intro limit i shift value hf hl _
    rw [decodeVarU32Go]
    have : ¬(i < limit) := by omega
    simp [this]
  | succ m ihn =>
    intro limit i shift value hf hl hcont
    rw [decodeVarU32Go]
    by_cases hi : i < limit
    · simp only [dif_pos hi]
      split
      next h2 =>
        have hib : i < buf.length := by omega
        rw [List.get?_eq_getElem?, List.getElem?_eq_getElem hib] at h2
        exact absurd h2 (by simp)
      next byte h2 =>
        have hbyte : 0x80 ≤ byte := by
          have hib : i < buf.length := by omega
          rw [List.get?_eq_getElem?, List.getElem?_eq_getElem hib] at h2
          have h3 := hcont i (Nat.le_refl i) hi
          rw [List.getD_eq_getElem buf 0 hib] at h3
          injection h2 with h4
          omega
        split
        · rfl
        · split
          next hlt2 => omega
          next =>
            exact ihn limit (i + 1) (shift + 7) _ (by omega) hl
              (fun k hk1 hk2 => hcont k (by omega) hk2)
    · simp [hi]

/-- `decode_var_u32` on a buffer of continuation bytes cleanly fails. -/
theorem decode_var_u32_cont (buf : List Nat) (hcont : ∀ b ∈ buf, 0x80 ≤ b) :
    decode_var_u32 buf = some none := by
  unfold decode_var_u32
  split
  · rfl
  · apply decodeVarU32Go_cont buf
      (if buf.length < 5 then buf.length else 5) _ 0 0 0 (by omega)
      (by split <;> omega)
    intro k _ hk2
    have hkb : k < buf.length := by
      revert hk2
      split <;> omega
    rw [List.getD_eq_getElem buf 0 hkb]
    exact hcont _ (List.getElem_mem hkb)

/-- `decode_var_u64` on a buffer of continuation bytes cleanly fails. -/
theorem decode_var_u64_cont (buf : List Nat) (hcont : ∀ b ∈ buf, 0x80 ≤ b) :
    decode_var_u64 buf = some none := by
  unfold decode_var_u64
  split
  · rfl
  · apply decodeVarU64Go_cont buf
      (if buf.length < 10 then buf.length else 10) _ 0 0 0 (by omega)
      (by split <;> omega)
    intro k _ hk2
    have hkb : k < buf.length := by
      revert hk2
      split <;> omega
    rw [List.getD_eq_getElem buf 0 hkb]
    exact hcont _ (List.getElem_mem hkb)

/-- Roundtrip of `decode_bytes_with_len` on a length-prefixed byte string
followed by anything. -/
theorem decode_bytes_with_len_encode (k rest : List Nat)
    (hk : k.length < 2 ^ 32) :
    decode_bytes_with_len (varBytes k.length ++ k ++ rest) =
      some (some (k, (varBytes k.length).length + k.length)) := by
  unfold decode_bytes_with_len
  rw [List.append_assoc, decode_var_u32_encode k.length (k ++ rest) hk]
  simp only []
  have hlen : (varBytes k.length ++ (k ++ rest)).length =
      (varBytes k.length).length + k.length + rest.length := by
    simp [Nat.add_assoc]
  rw [if_neg (by omega)]
  unfold sliceP
  rw [if_pos (by constructor <;> omega)]
  have hdrop : (varBytes k.length ++ (k ++ rest)).drop
      (varBytes k.length).length = k ++ rest := List.drop_left _ _
  have htake : (k ++ rest).take ((varBytes k.length).length + k.length -
      (varBytes k.length).length) = k := by
    have h2 : (varBytes k.length).length + k.length -
        (varBytes k.length).length = k.length := by omega
    rw [h2]
    exact List.take_left k rest
  rw [hdrop, htake]

/-- `decode_bytes_with_len` cleanly fails when the byte string is shorter
than its length prefix announces. -/
theorem decode_bytes_with_len_short (L : Nat) (k : List Nat)
    (hL : L < 2 ^ 32) (hk : k.length < L) :
    decode_bytes_with_len (varBytes L ++ k) = some none := by
  unfold decode_bytes_with_len
  rw [decode_var_u32_encode L k hL]
  simp only []
  rw [if_pos (by simp; omega)]

/-- `decode_bytes_with_len` never panics. -/
theorem decode_bytes_with_len_total (buf : List Nat) :
    ∃ r, decode_bytes_with_len buf = some r := by
  unfold decode_bytes_with_len
  obtain ⟨r, hr⟩ := decode_var_u32_total buf
  rw [hr]
  cases r with
  | none => exact ⟨none, rfl⟩
  | some p =>
    obtain ⟨v, n⟩ := p
    simp only []
    have hcons := decode_var_u32_consumed buf v n hr
    by_cases hshort : n + v > buf.length
    · rw [if_pos hshort]
      exact ⟨none, rfl⟩
    · rw [if_neg hshort]
      unfold sliceP
      rw [if_pos (by constructor <;> omega)]
      exact ⟨_, rfl⟩

/-- A successful `decode_bytes_with_len` consumes between 1 and
`buf.length` bytes. -/
theorem decode_bytes_with_len_consumed (buf : List Nat) (bs : List Nat)
    (n : Nat) (h : decode_bytes_with_len buf = some (some (bs, n))) :
    1 ≤ n ∧ n ≤ buf.length := by
  unfold decode_bytes_with_len at h
  cases hr : decode_var_u32 buf with
  | none => rw [hr] at h; exact absurd h (by simp)
  | some r =>
    rw [hr] at h
    cases r with
    | none => exact absurd h (by simp)
    | some p =>
      obtain ⟨v, m⟩ := p
      have hcons := decode_var_u32_consumed buf v m hr
      simp only at h
      split at h
      · exact absurd h (by simp)
      · unfold sliceP at h
        split at h
        · exact absurd h (by simp)
        · injection h with h1
          injection h1 with h2
          injection h2 with h3 h4
          omega

/-- Dropping the length of a leading chunk of an append. -/
theorem drop_append_len {α : Type} (a b : List α) (n : Nat)
    (h : n = a.length) : (a ++ b).drop n = b := by
  subst h
  exact List.drop_left a b

/-- Length of a doubly-nested append. -/
theorem len_append3 {α : Type} (a b c : List α) :
    ((a ++ b) ++ c).length = a.length + b.length + c.length := by
  rw [List.length_append, List.length_append]

/-- `entryEncode` with the `as u32` cast made lossless by well-formedness. -/
theorem entryEncode_eq (e : RawEntry) (hwf : WfEntry e) :
    entryEncode e = varBytes e.key.length ++ e.key ++ varBytes e.seq ++
      (match e.value with
       | some v => 1 :: (varBytes v.length ++ v)
       | none => [2]) := by
  unfold entryEncode
  obtain ⟨hk, _, _, hv⟩ := hwf
  rw [Nat.mod_eq_of_lt hk]
  cases hval : e.value with
  | none => rfl
  | some v =>
    simp only []
    rw [Nat.mod_eq_of_lt (hv v hval).1]

/-- Roundtrip of the entry parser on an encoded well-formed entry followed
by anything. -/
theorem decode_to_vec_u8_encode (e : RawEntry) (rest : List Nat)
    (hwf : WfEntry e) :
    decode_to_vec_u8 (entryEncode e ++ rest) =
      some (some (e, (entryEncode e).length)) := by
  obtain ⟨hk, _hkb, hs, hv⟩ := hwf
  obtain ⟨key, seq, val⟩ := e
  simp only [WfEntry] at hk hs hv
  rw [entryEncode_eq ⟨key, seq, val⟩ ⟨hk, _hkb, hs, hv⟩]
  simp only
  cases val with
  | none =>
    rw [show (varBytes key.length ++ key ++ varBytes seq ++ [2]) ++ rest =
      varBytes key.length ++ key ++ (varBytes seq ++ ([2] ++ rest)) by
        simp [List.append_assoc]]
    unfold decode_to_vec_u8
    rw [decode_bytes_with_len_encode key (varBytes seq ++ ([2] ++ rest)) hk]
    simp only []
    have hlen : (varBytes key.length ++ key ++
        (varBytes seq ++ ([2] ++ rest))).length =
        (varBytes key.length).length + key.length + (varBytes seq).length +
          1 + rest.length := by
      simp [List.length_append]
      omega
    unfold suffixFromP
    rw [if_pos (by omega)]
    have hdrop1 : (varBytes key.length ++ key ++
        (varBytes seq ++ ([2] ++ rest))).drop
          ((varBytes key.length).length + key.length) =
        varBytes seq ++ ([2] ++ rest) := by
      rw [show varBytes key.length ++ key ++ (varBytes seq ++ ([2] ++ rest)) =
        (varBytes key.length ++ key) ++ (varBytes seq ++ ([2] ++ rest)) by
          simp [List.append_assoc]]
      exact drop_append_len _ _ _ (by simp)
    rw [hdrop1]
    simp only []
    rw [decode_var_u64_encode seq ([2] ++ rest) hs]
    simp only []
    rw [if_neg (by omega)]
    have hd2 : (varBytes key.length ++ key ++
        (varBytes seq ++ ([2] ++ rest))).drop
          ((varBytes key.length).length + key.length +
            (varBytes seq).length) = [2] ++ rest := by
      rw [show varBytes key.length ++ key ++ (varBytes seq ++ ([2] ++ rest)) =
        ((varBytes key.length ++ key) ++ varBytes seq) ++ ([2] ++ rest) by
          simp [List.append_assoc]]
      refine drop_append_len _ _ _ ?_
      rw [len_append3]
    have hget : (varBytes key.length ++ key ++
        (varBytes seq ++ ([2] ++ rest))).get?
          ((varBytes key.length).length + key.length +
            (varBytes seq).length) = some 2 := by
      have hgd := List.getElem?_drop (varBytes key.length ++ key ++
        (varBytes seq ++ ([2] ++ rest)))
        ((varBytes key.length).length + key.length + (varBytes seq).length) 0
      rw [Nat.add_zero] at hgd
      rw [List.get?_eq_getElem?, ← hgd, hd2]
      simp
    rw [hget]
    simp only []
    rw [if_neg (by norm_num : ¬(2 : Nat) = 1)]
    simp only [if_true]
    simp only [Option.some_inj, Prod.mk.injEq, List.length_append,
      List.length_cons, List.length_nil]
  | some v =>
    have hv2 := hv v rfl
    rw [show (varBytes key.length ++ key ++ varBytes seq ++
        (1 :: (varBytes v.length ++ v))) ++ rest =
      varBytes key.length ++ key ++
        (varBytes seq ++ (1 :: (varBytes v.length ++ v) ++ rest)) by
        simp [List.append_assoc]]
    unfold decode_to_vec_u8
    rw [decode_bytes_with_len_encode key
      (varBytes seq ++ (1 :: (varBytes v.length ++ v) ++ rest)) hk]
    simp only []
    have hlen : (varBytes key.length ++ key ++
        (varBytes seq ++ (1 :: (varBytes v.length ++ v) ++ rest))).length =
        (varBytes key.length).length + key.length + (varBytes seq).length +
          1 + (varBytes v.length).length + v.length + rest.length := by
      simp [List.length_append]
      omega
    unfold suffixFromP
    rw [if_pos (by omega)]
    have hdrop1 : (varBytes key.length ++ key ++
        (varBytes seq ++ (1 :: (varBytes v.length ++ v) ++ rest))).drop
          ((varBytes key.length).length + key.length) =
        varBytes seq ++ (1 :: (varBytes v.length ++ v) ++ rest) := by
      rw [show varBytes key.length ++ key ++
          (varBytes seq ++ (1 :: (varBytes v.length ++ v) ++ rest)) =
        (varBytes key.length ++ key) ++
          (varBytes seq ++ (1 :: (varBytes v.length ++ v) ++ rest)) by
          simp [List.append_assoc]]
      exact drop_append_len _ _ _ (by simp)
    rw [hdrop1]
    simp only []
    rw [decode_var_u64_encode seq (1 :: (varBytes v.length ++ v) ++ rest) hs]
    simp only []
    rw [if_neg (by omega)]
    have hd2 : (varBytes key.length ++ key ++
        (varBytes seq ++ (1 :: (varBytes v.length ++ v) ++ rest))).drop
          ((varBytes key.length).length + key.length +
            (varBytes seq).length) =
        1 :: (varBytes v.length ++ v) ++ rest := by
      rw [show varBytes key.length ++ key ++
          (varBytes seq ++ (1 :: (varBytes v.length ++ v) ++ rest)) =
        ((varBytes key.length ++ key) ++ varBytes seq) ++
          (1 :: (varBytes v.length ++ v) ++ rest) by
          simp [List.append_assoc]]
      refine drop_append_len _ _ _ ?_
      rw [len_append3]
    have hget : (varBytes key.length ++ key ++
        (varBytes seq ++ (1 :: (varBytes v.length ++ v) ++ rest))).get?
          ((varBytes key.length).length + key.length +
            (varBytes seq).length) = some 1 := by
      have hgd := List.getElem?_drop (varBytes key.length ++ key ++
        (varBytes seq ++ (1 :: (varBytes v.length ++ v) ++ rest)))
        ((varBytes key.length).length + key.length + (varBytes seq).length) 0
      rw [Nat.add_zero] at hgd
      rw [List.get?_eq_getElem?, ← hgd, hd2]
      simp
    rw [hget]
    simp only []
    simp only [if_true]
    rw [if_pos (by omega)]
    have hdrop2 : (varBytes key.length ++ key ++
        (varBytes seq ++ (1 :: (varBytes v.length ++ v) ++ rest))).drop
          ((varBytes key.length).length + key.length +
            (varBytes seq).length + 1) =
        varBytes v.length ++ v ++ rest := by
      rw [show varBytes key.length ++ key ++
          (varBytes seq ++ (1 :: (varBytes v.length ++ v) ++ rest)) =
        ((varBytes key.length ++ key) ++ (varBytes seq ++ [1])) ++
          (varBytes v.length ++ v ++ rest) by
          simp [List.append_assoc]]
      rw [drop_append_len _ _ _ (by simp [List.length_append]; omega)]
    rw [hdrop2]
    simp only []
    rw [decode_bytes_with_len_encode v rest hv2.1]
    simp only [Option.some_inj, Prod.mk.injEq, List.length_append,
      List.length_cons, List.length_nil]
    refine ⟨trivial, by omega⟩

/-- Roundtrip of `Entry::decode` on an encoded well-formed entry. -/
theorem entryDecode_encode (e : RawEntry) (rest : List Nat) (hwf : WfEntry e) :
    entryDecode (entryEncode e ++ rest) =
      some (Except.ok (e, (entryEncode e).length)) := by
  unfold entryDecode
  rw [decode_to_vec_u8_encode e rest hwf]

/-- The entry parser never panics: every slice and index it takes is in
bounds, on any input. -/
theorem decode_to_vec_u8_total (buf : List Nat) :
    ∃ r, decode_to_vec_u8 buf = some r := by
  unfold decode_to_vec_u8
  obtain ⟨r1, hr1⟩ := decode_bytes_with_len_total buf
  rw [hr1]
  cases r1 with
  | none => exact ⟨none, rfl⟩
  | some p1 =>
    obtain ⟨key, n1⟩ := p1
    simp only []
    have hc1 := decode_bytes_with_len_consumed buf key n1 hr1
    unfold suffixFromP
    rw [if_pos (by omega)]
    simp only []
    obtain ⟨r2, hr2⟩ := decode_var_u64_total (buf.drop n1)
    rw [hr2]
    cases r2 with
    | none => exact ⟨none, rfl⟩
    | some p2 =>
      obtain ⟨seq, n2⟩ := p2
      simp only []
      have hc2 := decode_var_u64_consumed (buf.drop n1) seq n2 hr2
      rw [List.length_drop] at hc2
      by_cases hend : n1 + n2 = buf.length
      · rw [if_pos hend]
        exact ⟨none, rfl⟩
      · rw [if_neg hend]
        have hlt : n1 + n2 < buf.length := by omega
        rw [List.get?_eq_getElem?, List.getElem?_eq_getElem hlt]
        simp only []
        by_cases htag1 : buf[n1 + n2] = 1
        · rw [if_pos htag1]
          rw [if_pos (by omega)]
          simp only []
          obtain ⟨r3, hr3⟩ := decode_bytes_with_len_total (buf.drop (n1 + n2 + 1))
          rw [hr3]
          cases r3 with
          | none => exact ⟨none, rfl⟩
          | some p3 =>
            obtain ⟨value, n3⟩ := p3
            exact ⟨_, rfl⟩
        · rw [if_neg htag1]
          by_cases htag2 : buf[n1 + n2] = 2
          · rw [if_pos htag2]
            exact ⟨_, rfl⟩
          · rw [if_neg htag2]
            exact ⟨none, rfl⟩

/-- A successful entry parse consumes between 1 and `buf.length` bytes. -/
theorem decode_to_vec_u8_consumed (buf : List Nat) (e : RawEntry) (n : Nat)
    (h : decode_to_vec_u8 buf = some (some (e, n))) :
    1 ≤ n ∧ n ≤ buf.length := by
  unfold decode_to_vec_u8 at h
  cases hr1 : decode_bytes_with_len buf with
  | none => rw [hr1] at h; exact absurd h (by simp)
  | some r1 =>
    rw [hr1] at h
    cases r1 with
    | none => exact absurd h (by simp)
    | some p1 =>
      obtain ⟨key, n1⟩ := p1
      simp only [] at h
      have hc1 := decode_bytes_with_len_consumed buf key n1 hr1
      unfold suffixFromP at h
      rw [if_pos (by omega)] at h
      simp only [] at h
      cases hr2 : decode_var_u64 (buf.drop n1) with
      | none => rw [hr2] at h; exact absurd h (by simp)
      | some r2 =>
        rw [hr2] at h
        cases r2 with
        | none => exact absurd h (by simp)
        | some p2 =>
          obtain ⟨seq, n2⟩ := p2
          simp only [] at h
          have hc2 := decode_var_u64_consumed (buf.drop n1) seq n2 hr2
          rw [List.length_drop] at hc2
          split at h
          · exact absurd h (by simp)
          · split at h
            next hnone =>
              exact absurd h (by simp)
            next tag htag =>
              have hlt : n1 + n2 < buf.length := by
                have := List.get?_eq_some.mp htag
                obtain ⟨hb, _⟩ := this
                exact hb
              split at h
              · -- tag = 1
                split at h
                next hr3a =>
                  exact absurd h (by simp)
                next rest2 hrest2 =>
                  have hoff : n1 + n2 + 1 ≤ buf.length := by omega
                  rw [if_pos hoff] at hrest2
                  cases hr3 : decode_bytes_with_len rest2 with
                  | none => rw [hr3] at h; exact absurd h (by simp)
                  | some r3 =>
                    rw [hr3] at h
                    cases r3 with
                    | none => exact absurd h (by simp)
                    | some p3 =>
                      obtain ⟨value, n3⟩ := p3
                      simp only [] at h
                      have hc3 := decode_bytes_with_len_consumed rest2 value n3 hr3
                      have hr2len : rest2.length = buf.length - (n1 + n2 + 1) := by
                        injection hrest2 with hh
                        rw [← hh]
                        exact List.length_drop _ _
                      injection h with h4
                      injection h4 with h5
                      injection h5 with h6 h7
                      omega
              · split at h
                · injection h with h4
                  injection h4 with h5
                  injection h5 with h6 h7
                  omega
                · exact absurd h (by simp)

/-- `decode_bytes_with_len` cleanly fails on continuation bytes only. -/
theorem decode_bytes_with_len_cont (buf : List Nat)
    (hcont : ∀ b ∈ buf, 0x80 ≤ b) :
    decode_bytes_with_len buf = some none := by
  unfold decode_bytes_with_len
  rw [decode_var_u32_cont buf hcont]

/-- The entry parser cleanly fails when the key parse cleanly fails. -/
theorem decode_to_vec_u8_fail1 (buf : List Nat)
    (h : decode_bytes_with_len buf = some none) :
    decode_to_vec_u8 buf = some none := by
  unfold decode_to_vec_u8
  rw [h]

/-- The entry parser cleanly fails when the key parses and the sequence
varint cleanly fails. -/
theorem decode_to_vec_u8_fail2 (key tail : List Nat)
    (hk : key.length < 2 ^ 32) (h2 : decode_var_u64 tail = some none) :
    decode_to_vec_u8 (varBytes key.length ++ key ++ tail) = some none := by
  unfold decode_to_vec_u8
  rw [decode_bytes_with_len_encode key tail hk]
  simp only []
  unfold suffixFromP
  rw [if_pos (by simp [List.length_append])]
  have hdrop1 : (varBytes key.length ++ key ++ tail).drop
      ((varBytes key.length).length + key.length) = tail := by
    rw [show varBytes key.length ++ key ++ tail =
      (varBytes key.length ++ key) ++ tail by simp [List.append_assoc]]
    exact drop_append_len _ _ _ (by rw [List.length_append])
  rw [hdrop1]
  simp only []
  rw [h2]

/-- The entry parser cleanly fails when the buffer ends right after the
sequence varint (the tag byte is missing). -/
theorem decode_to_vec_u8_fail3 (key : List Nat) (seq : Nat)
    (hk : key.length < 2 ^ 32) (hs : seq < 2 ^ 64) :
    decode_to_vec_u8 (varBytes key.length ++ key ++ varBytes seq) =
      some none := by
  unfold decode_to_vec_u8
  rw [decode_bytes_with_len_encode key (varBytes seq) hk]
  simp only []
  unfold suffixFromP
  rw [if_pos (by simp [List.length_append])]
  have hdrop1 : (varBytes key.length ++ key ++ varBytes seq).drop
      ((varBytes key.length).length + key.length) = varBytes seq := by
    rw [show varBytes key.length ++ key ++ varBytes seq =
      (varBytes key.length ++ key) ++ varBytes seq by simp [List.append_assoc]]
    exact drop_append_len _ _ _ (by rw [List.length_append])
  rw [hdrop1]
  simp only []
  have hrt := decode_var_u64_encode seq [] hs
  rw [List.append_nil] at hrt
  rw [hrt]
  simp only []
  rw [if_pos (by simp only [List.length_append])]

/-- The entry parser reports corruption on a tag byte other than 1 or 2. -/
theorem decode_to_vec_u8_bad_tag (key : List Nat) (seq t : Nat)
    (suffix : List Nat) (hk : key.length < 2 ^ 32) (hs : seq < 2 ^ 64)
    (ht1 : t ≠ 1) (ht2 : t ≠ 2) :
    decode_to_vec_u8 (varBytes key.length ++ key ++ varBytes seq ++
      t :: suffix) = some none := by
  unfold decode_to_vec_u8
  rw [show varBytes key.length ++ key ++ varBytes seq ++ t :: suffix =
    varBytes key.length ++ key ++ (varBytes seq ++ t :: suffix) by
      simp [List.append_assoc]]
  rw [decode_bytes_with_len_encode key (varBytes seq ++ t :: suffix) hk]
  simp only []
  have hlen : (varBytes key.length ++ key ++
      (varBytes seq ++ t :: suffix)).length =
      (varBytes key.length).length + key.length + (varBytes seq).length +
        1 + suffix.length := by
    simp [List.length_append]
    omega
  unfold suffixFromP
  rw [if_pos (by omega)]
  have hdrop1 : (varBytes key.length ++ key ++
      (varBytes seq ++ t :: suffix)).drop
        ((varBytes key.length).length + key.length) =
      varBytes seq ++ t :: suffix := by
    rw [show varBytes key.length ++ key ++ (varBytes seq ++ t :: suffix) =
      (varBytes key.length ++ key) ++ (varBytes seq ++ t :: suffix) by
        simp [List.append_assoc]]
    exact drop_append_len _ _ _ (by rw [List.length_append])
  rw [hdrop1]
  simp only []
  rw [decode_var_u64_encode seq (t :: suffix) hs]
  simp only []
  rw [if_neg (by omega)]
  have hd2 : (varBytes key.length ++ key ++
      (varBytes seq ++ t :: suffix)).drop
        ((varBytes key.length).length + key.length +
          (varBytes seq).length) = t :: suffix := by
    rw [show varBytes key.length ++ key ++ (varBytes seq ++ t :: suffix) =
      ((varBytes key.length ++ key) ++ varBytes seq) ++ (t :: suffix) by
        simp [List.append_assoc]]
    refine drop_append_len _ _ _ ?_
    rw [len_append3]
  have hget : (varBytes key.length ++ key ++
      (varBytes seq ++ t :: suffix)).get?
        ((varBytes key.length).length + key.length +
          (varBytes seq).length) = some t := by
    have hgd := List.getElem?_drop (varBytes key.length ++ key ++
      (varBytes seq ++ t :: suffix))
      ((varBytes key.length).length + key.length + (varBytes seq).length) 0
    rw [Nat.add_zero] at hgd
    rw [List.get?_eq_getElem?, ← hgd, hd2]
    simp
  rw [hget]
  simp only []
  rw [if_neg ht1, if_neg ht2]

/-- The entry parser cleanly fails when the tag is 1 but the value parse
cleanly fails. -/
theorem decode_to_vec_u8_fail4 (key : List Nat) (seq : Nat)
    (tail3 : List Nat) (hk : key.length < 2 ^ 32) (hs : seq < 2 ^ 64)
    (h3 : decode_bytes_with_len tail3 = some none) :
    decode_to_vec_u8 (varBytes key.length ++ key ++ varBytes seq ++
      1 :: tail3) = some none := by
  unfold decode_to_vec_u8
  rw [show varBytes key.length ++ key ++ varBytes seq ++ 1 :: tail3 =
    varBytes key.length ++ key ++ (varBytes seq ++ 1 :: tail3) by
      simp [List.append_assoc]]
  rw [decode_bytes_with_len_encode key (varBytes seq ++ 1 :: tail3) hk]
  simp only []
  have hlen : (varBytes key.length ++ key ++
      (varBytes seq ++ 1 :: tail3)).length =
      (varBytes key.length).length + key.length + (varBytes seq).length +
        1 + tail3.length := by
    simp [List.length_append]
    omega
  unfold suffixFromP
  rw [if_pos (by omega)]
  have hdrop1 : (varBytes key.length ++ key ++
      (varBytes seq ++ 1 :: tail3)).drop
        ((varBytes key.length).length + key.length) =
      varBytes seq ++ 1 :: tail3 := by
    rw [show varBytes key.length ++ key ++ (varBytes seq ++ 1 :: tail3) =
      (varBytes key.length ++ key) ++ (varBytes seq ++ 1 :: tail3) by
        simp [List.append_assoc]]
    exact drop_append_len _ _ _ (by rw [List.length_append])
  rw [hdrop1]
  simp only []
  rw [decode_var_u64_encode seq (1 :: tail3) hs]
  simp only []
  rw [if_neg (by omega)]
  have hd2 : (varBytes key.length ++ key ++
      (varBytes seq ++ 1 :: tail3)).drop
        ((varBytes key.length).length + key.length +
          (varBytes seq).length) = 1 :: tail3 := by
    rw [show varBytes key.length ++ key ++ (varBytes seq ++ 1 :: tail3) =
      ((varBytes key.length ++ key) ++ varBytes seq) ++ (1 :: tail3) by
        simp [List.append_assoc]]
    refine drop_append_len _ _ _ ?_
    rw [len_append3]
  have hget : (varBytes key.length ++ key ++
      (varBytes seq ++ 1 :: tail3)).get?
        ((varBytes key.length).length + key.length +
          (varBytes seq).length) = some 1 := by
    have hgd := List.getElem?_drop (varBytes key.length ++ key ++
      (varBytes seq ++ 1 :: tail3))
      ((varBytes key.length).length + key.length + (varBytes seq).length) 0
    rw [Nat.add_zero] at hgd
    rw [List.get?_eq_getElem?, ← hgd, hd2]
    simp
  rw [hget]
  simp only []
  simp only [if_true]
  rw [if_pos (by omega)]
  have hd3 : (varBytes key.length ++ key ++
      (varBytes seq ++ 1 :: tail3)).drop
        ((varBytes key.length).length + key.length +
          (varBytes seq).length + 1) = tail3 := by
    rw [show varBytes key.length ++ key ++ (varBytes seq ++ 1 :: tail3) =
      ((varBytes key.length ++ key) ++ (varBytes seq ++ [1])) ++ tail3 by
        simp [List.append_assoc]]
    refine drop_append_len _ _ _ ?_
    rw [len_append3, List.length_append]
    simp only [List.length_cons, List.length_nil]
    omega
  rw [hd3]
  simp only []
  rw [h3]

/-- Every strict initial segment of an encoded well-formed entry makes the
entry parser fail cleanly. -/
theorem decode_to_vec_u8_trunc (e : RawEntry) (hwf : WfEntry e) (n : Nat)
    (hn : n < (entryEncode e).length) :
    decode_to_vec_u8 ((entryEncode e).take n) = some none := by
  obtain ⟨hk, hkb, hs, hv⟩ := hwf
  obtain ⟨key, seq, val⟩ := e
  rw [entryEncode_eq ⟨key, seq, val⟩ ⟨hk, hkb, hs, hv⟩] at hn ⊢
  simp only at hn hk hkb hs hv ⊢
  cases val with
  | none =>
    simp only [] at hn ⊢
    rw [show varBytes key.length ++ key ++ varBytes seq ++ [2] =
      varBytes key.length ++ (key ++ (varBytes seq ++ [2])) by
        simp [List.append_assoc]] at hn ⊢
    simp only [List.length_append] at hn
    rw [List.take_append_eq_append_take, List.take_append_eq_append_take,
      List.take_append_eq_append_take]
    by_cases hc1 : n < (varBytes key.length).length
    · have h0 : n - (varBytes key.length).length = 0 := by omega
      rw [h0]
      simp only [Nat.zero_sub, List.take_zero, List.append_nil]
      apply decode_to_vec_u8_fail1
      apply decode_bytes_with_len_cont
      exact varBytes_take_cont key.length n hc1
    · have hA : (varBytes key.length).take n = varBytes key.length :=
        List.take_of_length_le (by omega)
      rw [hA]
      by_cases hc2 : n - (varBytes key.length).length < key.length
      · have h0 : n - (varBytes key.length).length - key.length = 0 := by
          omega
        rw [h0]
        simp only [Nat.zero_sub, List.take_zero, List.append_nil]
        apply decode_to_vec_u8_fail1
        apply decode_bytes_with_len_short key.length _ hk
        rw [List.length_take]
        omega
      · have hK : key.take (n - (varBytes key.length).length) = key :=
          List.take_of_length_le (by omega)
        rw [hK]
        by_cases hc3 : n - (varBytes key.length).length - key.length <
            (varBytes seq).length
        · have h0 : n - (varBytes key.length).length - key.length -
              (varBytes seq).length = 0 := by omega
          rw [h0]
          simp only [Nat.zero_sub, List.take_zero, List.append_nil]
          rw [show varBytes key.length ++ (key ++ (varBytes seq).take
              (n - (varBytes key.length).length - key.length)) =
            varBytes key.length ++ key ++ (varBytes seq).take
              (n - (varBytes key.length).length - key.length) by
              simp [List.append_assoc]]
          apply decode_to_vec_u8_fail2 key _ hk
          apply decode_var_u64_cont
          exact varBytes_take_cont seq _ hc3
        · have hB : (varBytes seq).take
              (n - (varBytes key.length).length - key.length) =
              varBytes seq := List.take_of_length_le (by omega)
          rw [hB]
          have hlen2 : n - (varBytes key.length).length - key.length -
              (varBytes seq).length = 0 := by
            simp only [List.length_cons, List.length_nil] at hn
            omega
          rw [hlen2]
          simp only [Nat.zero_sub, List.take_zero, List.append_nil]
          rw [show varBytes key.length ++ (key ++ varBytes seq) =
            varBytes key.length ++ key ++ varBytes seq by
              simp [List.append_assoc]]
          exact decode_to_vec_u8_fail3 key seq hk hs
  | some v =>
    have hv2 := hv v rfl
    simp only [] at hn ⊢
    rw [show varBytes key.length ++ key ++ varBytes seq ++
        (1 :: (varBytes v.length ++ v)) =
      varBytes key.length ++ (key ++ (varBytes seq ++
        (1 :: (varBytes v.length ++ v)))) by
        simp [List.append_assoc]] at hn ⊢
    simp only [List.length_append] at hn
    rw [List.take_append_eq_append_take, List.take_append_eq_append_take,
      List.take_append_eq_append_take]
    by_cases hc1 : n < (varBytes key.length).length
    · have h0 : n - (varBytes key.length).length = 0 := by omega
      rw [h0]
      simp only [Nat.zero_sub, List.take_zero, List.append_nil]
      apply decode_to_vec_u8_fail1
      apply decode_bytes_with_len_cont
      exact varBytes_take_cont key.length n hc1
    · have hA : (varBytes key.length).take n = varBytes key.length :=
        List.take_of_length_le (by omega)
      rw [hA]
      by_cases hc2 : n - (varBytes key.length).length < key.length
      · have h0 : n - (varBytes key.length).length - key.length = 0 := by
          omega
        rw [h0]
        simp only [Nat.zero_sub, List.take_zero, List.append_nil]
        apply decode_to_vec_u8_fail1
        apply decode_bytes_with_len_short key.length _ hk
        rw [List.length_take]
        omega
      · have hK : key.take (n - (varBytes key.length).length) = key :=
          List.take_of_length_le (by omega)
        rw [hK]
        by_cases hc3 : n - (varBytes key.length).length - key.length <
            (varBytes seq).length
        · have h0 : n - (varBytes key.length).length - key.length -
              (varBytes seq).length = 0 := by omega
          rw [h0]
          simp only [Nat.zero_sub, List.take_zero, List.append_nil]
          rw [show varBytes key.length ++ (key ++ (varBytes seq).take
              (n - (varBytes key.length).length - key.length)) =
            varBytes key.length ++ key ++ (varBytes seq).take
              (n - (varBytes key.length).length - key.length) by
              simp [List.append_assoc]]
          apply decode_to_vec_u8_fail2 key _ hk
          apply decode_var_u64_cont
          exact varBytes_take_cont seq _ hc3
        · have hB : (varBytes seq).take
              (n - (varBytes key.length).length - key.length) =
              varBytes seq := List.take_of_length_le (by omega)
          rw [hB]
          by_cases hc4 : n - (varBytes key.length).length - key.length -
              (varBytes seq).length = 0
          · rw [hc4]
            simp only [Nat.zero_sub, List.take_zero, List.append_nil]
            rw [show varBytes key.length ++ (key ++ varBytes seq) =
              varBytes key.length ++ key ++ varBytes seq by
                simp [List.append_assoc]]
            exact decode_to_vec_u8_fail3 key seq hk hs
          · obtain ⟨m, hm⟩ : ∃ m, n - (varBytes key.length).length -
                key.length - (varBytes seq).length = m + 1 :=
              ⟨_, (Nat.succ_pred_eq_of_pos (Nat.pos_of_ne_zero hc4)).symm⟩
            rw [hm, List.take_succ_cons, List.take_append_eq_append_take]
            have hmlt : m < (varBytes v.length).length + v.length := by
              simp only [List.length_cons, List.length_append] at hn
              omega
            by_cases hc5 : m < (varBytes v.length).length
            · have h0 : m - (varBytes v.length).length = 0 := by omega
              rw [h0]
              simp only [Nat.zero_sub, List.take_zero, List.append_nil]
              rw [show varBytes key.length ++ (key ++ (varBytes seq ++
                  1 :: (varBytes v.length).take m)) =
                varBytes key.length ++ key ++ varBytes seq ++
                  1 :: (varBytes v.length).take m by simp [List.append_assoc]]
              apply decode_to_vec_u8_fail4 key seq _ hk hs
              apply decode_bytes_with_len_cont
              exact varBytes_take_cont v.length m hc5
            · have hC : (varBytes v.length).take m = varBytes v.length :=
                List.take_of_length_le (by omega)
              rw [hC]
              rw [show varBytes key.length ++ (key ++ (varBytes seq ++
                  1 :: (varBytes v.length ++
                    v.take (m - (varBytes v.length).length)))) =
                varBytes key.length ++ key ++ varBytes seq ++
                  1 :: (varBytes v.length ++
                    v.take (m - (varBytes v.length).length)) by
                  simp [List.append_assoc]]
              apply decode_to_vec_u8_fail4 key seq _ hk hs
              apply decode_bytes_with_len_short v.length _ hv2.1
              rw [List.length_take]
              omega

/-- XOR cancellation of a common operand. -/
theorem xor_shuffle (a b c : Nat) : a ^^^ b ^^^ (a ^^^ c) = b ^^^ c := by
  apply Nat.eq_of_testBit_eq
  intro i
  simp only [Nat.testBit_xor]
  simp [Bool.xor_assoc, Bool.xor_comm, Bool.xor_left_comm]

/-- XOR cancellation of a common second operand. -/
theorem xor_shuffle2 (x y b : Nat) : x ^^^ b ^^^ (y ^^^ b) = x ^^^ y := by
  apply Nat.eq_of_testBit_eq
  intro i
  simp only [Nat.testBit_xor]
  simp [Bool.xor_assoc, Bool.xor_comm, Bool.xor_left_comm]

/-- Pairwise exchange across XOR. -/
theorem xor4_swap (a b c d : Nat) :
    (a ^^^ b) ^^^ (c ^^^ d) = (a ^^^ c) ^^^ (b ^^^ d) := by
  apply Nat.eq_of_testBit_eq
  intro i
  simp only [Nat.testBit_xor]
  generalize a.testBit i = p
  generalize b.testBit i = q
  generalize c.testBit i = r
  generalize d.testBit i = t
  cases p <;> cases q <;> cases r <;> cases t <;> rfl

/-- `crcBit` as an unconditional XOR with a masked multiple. -/
theorem crcBit_eq (s : Nat) :
    crcBit s = (s >>> 1) ^^^ (s &&& 1) * 0xEDB88320 := by
  unfold crcBit
  have h1 : s &&& 1 = s % 2 := Nat.and_one_is_mod s
  rcases Nat.mod_two_eq_zero_or_one s with h | h
  · rw [if_neg (by omega), h1, h]
    simp
  · rw [if_pos h, h1, h]

/-- `crcBit` distributes over XOR. -/
theorem crcBit_xor (x y : Nat) : crcBit (x ^^^ y) = crcBit x ^^^ crcBit y := by
  have hshift : (x ^^^ y) >>> 1 = x >>> 1 ^^^ y >>> 1 := by
    apply Nat.eq_of_testBit_eq
    intro i
    simp [Nat.testBit_shiftRight, Nat.testBit_xor]
  have hbit : (x ^^^ y) &&& 1 = (x &&& 1) ^^^ (y &&& 1) := by
    apply Nat.eq_of_testBit_eq
    intro i
    simp only [Nat.testBit_and, Nat.testBit_xor]
    generalize x.testBit i = p
    generalize y.testBit i = q
    generalize Nat.testBit 1 i = r
    cases p <;> cases q <;> cases r <;> rfl
  have hmul : ((x &&& 1) ^^^ (y &&& 1)) * 0xEDB88320 =
      (x &&& 1) * 0xEDB88320 ^^^ (y &&& 1) * 0xEDB88320 := by
    have hx1 : x &&& 1 = 0 ∨ x &&& 1 = 1 := by
      rw [Nat.and_one_is_mod]
      omega
    have hy1 : y &&& 1 = 0 ∨ y &&& 1 = 1 := by
      rw [Nat.and_one_is_mod]
      omega
    rcases hx1 with h | h <;> rcases hy1 with h2 | h2 <;>
      simp [h, h2, Nat.xor_self]
  rw [crcBit_eq x, crcBit_eq y, crcBit_eq (x ^^^ y), hshift, hbit, hmul,
    xor4_swap]

/-- `crcBit` keeps the state inside 32 bits. -/
theorem crcBit_lt (s : Nat) (h : s < 2 ^ 32) : crcBit s < 2 ^ 32 := by
  unfold crcBit
  have hdiv : s >>> 1 < 2 ^ 32 := by
    rw [Nat.shiftRight_eq_div_pow]
    omega
  split
  · exact Nat.xor_lt_two_pow hdiv (by norm_num)
  · exact hdiv

/-- `crcBit` of a nonzero 32-bit state is nonzero: the reflected
polynomial has its top bit set, so the feedback step is injective. -/
theorem crcBit_ne_zero (s : Nat) (hlt : s < 2 ^ 32) (hne : s ≠ 0) :
    crcBit s ≠ 0 := by
  unfold crcBit
  split
  next hodd =>
    intro hc
    have h2 : s >>> 1 = 0xEDB88320 := Nat.xor_eq_zero.mp hc
    rw [Nat.shiftRight_eq_div_pow] at h2
    omega
  next heven =>
    intro hc
    rw [Nat.shiftRight_eq_div_pow] at hc
    have h2 : s % 2 = 0 := by
      rcases Nat.mod_two_eq_zero_or_one s with h | h
      · exact h
      · exact absurd h heven
    omega

/-- `crcBit8` distributes over XOR. -/
theorem crcBit8_xor (x y : Nat) :
    crcBit8 (x ^^^ y) = crcBit8 x ^^^ crcBit8 y := by
  unfold crcBit8
  rw [crcBit_xor, crcBit_xor, crcBit_xor, crcBit_xor, crcBit_xor,
    crcBit_xor, crcBit_xor, crcBit_xor]

/-- `crcBit8` keeps the state inside 32 bits. -/
theorem crcBit8_lt (s : Nat) (h : s < 2 ^ 32) : crcBit8 s < 2 ^ 32 := by
  unfold crcBit8
  exact crcBit_lt _ (crcBit_lt _ (crcBit_lt _ (crcBit_lt _ (crcBit_lt _
    (crcBit_lt _ (crcBit_lt _ (crcBit_lt _ h)))))))

/-- `crcBit8` of a nonzero 32-bit state is nonzero. -/
theorem crcBit8_ne_zero (s : Nat) (hlt : s < 2 ^ 32) (hne : s ≠ 0) :
    crcBit8 s ≠ 0 := by
  unfold crcBit8
  have h1 := crcBit_lt s hlt
  have n1 := crcBit_ne_zero s hlt hne
  have h2 := crcBit_lt _ h1
  have n2 := crcBit_ne_zero _ h1 n1
  have h3 := crcBit_lt _ h2
  have n3 := crcBit_ne_zero _ h2 n2
  have h4 := crcBit_lt _ h3
  have n4 := crcBit_ne_zero _ h3 n3
  have h5 := crcBit_lt _ h4
  have n5 := crcBit_ne_zero _ h4 n4
  have h6 := crcBit_lt _ h5
  have n6 := crcBit_ne_zero _ h5 n5
  have h7 := crcBit_lt _ h6
  have n7 := crcBit_ne_zero _ h6 n6
  exact crcBit_ne_zero _ h7 n7

/-- Absorbing two different bytes into the same state XORs to `crcBit8`
of the bytes' difference. -/
theorem crcByteStep_diff (A b c : Nat) :
    crcByteStep A b ^^^ crcByteStep A c = crcBit8 (b ^^^ c) := by
  unfold crcByteStep
  rw [← crcBit8_xor, xor_shuffle]

/-- Folding a common suffix onto two states iterates `crcBit8` on the
XOR difference of the states. -/
theorem crcRun_diff (s : List Nat) : ∀ (x y : Nat),
    s.foldl crcByteStep x ^^^ s.foldl crcByteStep y =
      crcBit8^[s.length] (x ^^^ y) := by
  induction s with
  | nil => intro x y; rfl
  | cons b s ih =>
    intro x y
    simp only [List.foldl_cons, List.length_cons]
    rw [ih (crcByteStep x b) (crcByteStep y b)]
    rw [show crcByteStep x b ^^^ crcByteStep y b = crcBit8 (x ^^^ y) by
      unfold crcByteStep
      rw [← crcBit8_xor, xor_shuffle2]]
    rw [Function.iterate_succ_apply]

/-- Iterated `crcBit8` of a nonzero 32-bit value stays nonzero. -/
theorem crcBit8_iterate_ne_zero (k : Nat) : ∀ (s : Nat), s < 2 ^ 32 →
    s ≠ 0 → crcBit8^[k] s ≠ 0 ∧ crcBit8^[k] s < 2 ^ 32 := by
  induction k with
  | zero => intro s h1 h2; exact ⟨h2, h1⟩
  | succ k ih =>
    intro s h1 h2
    rw [Function.iterate_succ_apply]
    exact ih (crcBit8 s) (crcBit8_lt s h1) (crcBit8_ne_zero s h1 h2)

/-- CRC-32 detects any single-byte difference between two equal-length
buffers. -/
theorem crc32_single_byte (p s : List Nat) (b c : Nat) (hb : b < 256)
    (hc : c < 256) (hne : b ≠ c) :
    crc32_checksum (p ++ b :: s) ≠ crc32_checksum (p ++ c :: s) := by
  intro hcontra
  unfold crc32_checksum at hcontra
  have hx : (p ++ b :: s).foldl crcByteStep 0xFFFFFFFF =
      (p ++ c :: s).foldl crcByteStep 0xFFFFFFFF :=
    Nat.xor_left_inj.mp hcontra
  have hdiff : (p ++ b :: s).foldl crcByteStep 0xFFFFFFFF ^^^
      (p ++ c :: s).foldl crcByteStep 0xFFFFFFFF = 0 := by
    rw [hx, Nat.xor_self]
  rw [List.foldl_append, List.foldl_append, List.foldl_cons,
    List.foldl_cons,
    crcRun_diff s (crcByteStep (p.foldl crcByteStep 0xFFFFFFFF) b)
      (crcByteStep (p.foldl crcByteStep 0xFFFFFFFF) c),
    crcByteStep_diff] at hdiff
  have hbc1 : b ^^^ c ≠ 0 := Nat.xor_ne_zero.mpr hne
  have hbc2 : b ^^^ c < 2 ^ 32 :=
    Nat.xor_lt_two_pow (by omega) (by omega)
  have hb8a : crcBit8 (b ^^^ c) ≠ 0 := crcBit8_ne_zero _ hbc2 hbc1
  have hb8b : crcBit8 (b ^^^ c) < 2 ^ 32 := crcBit8_lt _ hbc2
  exact (crcBit8_iterate_ne_zero s.length _ hb8b hb8a).1 hdiff

/-- CRC-32 of a byte buffer fits in 32 bits. -/
theorem crc32_checksum_lt (data : List Nat) (hdata : ByteList data) :
    crc32_checksum data < 2 ^ 32 := by
  unfold crc32_checksum
  have hrun : ∀ (l : List Nat), (∀ b ∈ l, b < 256) → ∀ (x : Nat),
      x < 2 ^ 32 → l.foldl crcByteStep x < 2 ^ 32 := by
    intro l
    induction l with
    | nil => intro _ x hx; exact hx
    | cons a l ih =>
      intro hl x hx
      simp only [List.foldl_cons]
      apply ih (fun b hb => hl b (List.mem_cons_of_mem _ hb))
      unfold crcByteStep
      apply crcBit8_lt
      exact Nat.xor_lt_two_pow hx
        (by have := hl a (List.mem_cons_self a l); omega)
  apply Nat.xor_lt_two_pow
  · exact hrun data hdata 0xFFFFFFFF (by norm_num)
  · norm_num

/-- Taking the length of the leading chunk of an append. -/
theorem take_append_len {α : Type} (a b : List α) (n : Nat)
    (h : n = a.length) : (a ++ b).take n = a := by
  subst h
  exact List.take_left a b

/-- Decomposing `set` at an in-range index. -/
theorem set_decomp {α : Type} (l : List α) (i : Nat) (x : α)
    (h : i < l.length) : l.set i x = l.take i ++ x :: l.drop (i + 1) := by
  conv_lhs => rw [← List.take_append_drop i (l.set i x)]
  rw [List.drop_eq_getElem_cons (by simpa using h)]
  rw [List.getElem_set_self]
  rw [List.set_take, List.set_eq_of_length_le (by rw [List.length_take]; omega)]
  rw [List.drop_set, if_pos (by omega)]

/-- Decomposing a list at an in-range index. -/
theorem list_decomp {α : Type} (l : List α) (i : Nat) (h : i < l.length) :
    l = l.take i ++ l.get ⟨i, h⟩ :: l.drop (i + 1) := by
  conv_lhs => rw [← List.take_append_drop i l]
  rw [List.drop_eq_getElem_cons h]
  rfl

/-- `fixedU32Bytes` always yields four bytes. -/
theorem fixedU32Bytes_length (v : Nat) : (fixedU32Bytes v).length = 4 := rfl

/-- `fixedU32Bytes` yields genuine bytes. -/
theorem fixedU32Bytes_bytes (v : Nat) : ByteList (fixedU32Bytes v) := by
  intro b hb
  unfold fixedU32Bytes at hb
  simp only [List.mem_cons, List.not_mem_nil, or_false] at hb
  rcases hb with h | h | h | h <;> subst h <;> omega

/-- `decode_fixed_u32` on four explicit bytes is the little-endian sum. -/
theorem decode_fixed_u32_bytes (a b c d : Nat) (ha : a < 256) (hb : b < 256)
    (hc : c < 256) (_hd : d < 256) :
    decode_fixed_u32 [a, b, c, d] =
      a + 2 ^ 8 * b + 2 ^ 16 * c + 2 ^ 24 * d := by
  unfold decode_fixed_u32
  simp only [List.getD_cons_zero, List.getD_cons_succ]
  have h1 : a ||| b <<< 8 = 2 ^ 8 * b + a := by
    rw [Nat.shiftLeft_eq, Nat.mul_comm b (2 ^ 8), Nat.lor_comm,
      ← Nat.mul_add_lt_is_or ha]
  have hlt1 : 2 ^ 8 * b + a < 2 ^ 16 := by omega
  have h2 : a ||| b <<< 8 ||| c <<< 16 = 2 ^ 16 * c + (2 ^ 8 * b + a) := by
    rw [h1, Nat.shiftLeft_eq, Nat.mul_comm c (2 ^ 16), Nat.lor_comm,
      ← Nat.mul_add_lt_is_or hlt1]
  have hlt2 : 2 ^ 16 * c + (2 ^ 8 * b + a) < 2 ^ 24 := by omega
  rw [h2, Nat.shiftLeft_eq, Nat.mul_comm d (2 ^ 24), Nat.lor_comm,
    ← Nat.mul_add_lt_is_or hlt2]
  omega

/-- Roundtrip of the fixed `u32` codec. -/
theorem decode_fixed_u32_roundtrip (v : Nat) :
    decode_fixed_u32 (fixedU32Bytes v) = v % 2 ^ 32 := by
  unfold fixedU32Bytes
  rw [decode_fixed_u32_bytes _ _ _ _ (by omega)
    (by rw [Nat.shiftRight_eq_div_pow]; omega)
    (by rw [Nat.shiftRight_eq_div_pow]; omega)
    (by rw [Nat.shiftRight_eq_div_pow]; omega)]
  rw [Nat.shiftRight_eq_div_pow, Nat.shiftRight_eq_div_pow,
    Nat.shiftRight_eq_div_pow]
  omega

/-- Changing one byte of a four-byte little-endian word changes its value. -/
theorem decode_fixed_u32_set_ne (a b c d i x : Nat) (ha : a < 256)
    (hb : b < 256) (hc : c < 256) (hd : d < 256) (hx : x < 256) (hi : i < 4)
    (hne : x ≠ [a, b, c, d].getD i 0) :
    decode_fixed_u32 ([a, b, c, d].set i x) ≠ decode_fixed_u32 [a, b, c, d] := by
  rw [decode_fixed_u32_bytes a b c d ha hb hc hd]
  interval_cases i <;>
    simp only [List.set, List.getD_cons_zero, List.getD_cons_succ] at hne ⊢ <;>
    rw [decode_fixed_u32_bytes _ _ _ _ (by omega) (by omega) (by omega)
      (by omega)] <;>
    omega

/-- `entryEncode` is never empty. -/
theorem entryEncode_pos (e : RawEntry) : 0 < (entryEncode e).length := by
  unfold entryEncode
  cases hvb : varBytes (e.key.length % 2 ^ 32) with
  | nil => exact absurd hvb (varBytes_ne_nil _)
  | cons a l => simp

/-- `entryEncode` of a well-formed entry yields bytes. -/
theorem entryEncode_bytes (e : RawEntry) (hwf : WfEntry e) :
    ByteList (entryEncode e) := by
  obtain ⟨_, hkb, _, hv⟩ := hwf
  intro b hb
  unfold entryEncode at hb
  simp only [List.mem_append, List.mem_cons] at hb
  rcases hb with ((h | h) | h) | h
  · exact varBytes_bytes _ b h
  · exact hkb b h
  · exact varBytes_bytes _ b h
  · cases hval : e.value with
    | none =>
      rw [hval] at h
      simp only [List.mem_singleton] at h
      omega
    | some v =>
      rw [hval] at h
      simp only [List.mem_cons, List.mem_append] at h
      rcases h with h | (h | h)
      · omega
      · exact varBytes_bytes _ b h
      · exact (hv v hval).2 b h

/-- `entriesEncode` of a well-formed batch yields bytes. -/
theorem entriesEncode_bytes (es : List RawEntry) (hwf : WfBatch es) :
    ByteList (entriesEncode es) := by
  induction es with
  | nil => intro b hb; exact absurd hb (List.not_mem_nil b)
  | cons e es ih =>
    intro b hb
    unfold entriesEncode at hb
    rcases List.mem_append.mp hb with h | h
    · exact entryEncode_bytes e (hwf e (List.mem_cons_self e es)) b h
    · exact ih (fun x hx => hwf x (List.mem_cons_of_mem e hx)) b h

/-! ## WAL frame lemmas (`src/wal/write_batch.rs:63-97`) -/

/-- Roundtrip of the entry loop of `WriteBatch::decode`: started right
after any prefix whose length is the offset, it recovers the encoded
entries. -/
theorem writeBatchDecodeFrom_encode (es : List RawEntry) (hwf : WfBatch es) :
    ∀ (pre : List Nat) (off : Nat), off = pre.length →
    writeBatchDecodeFrom (pre ++ entriesEncode es) off =
      some (Except.ok es) := by
  induction es with
  | nil =>
    intro pre off hoff
    unfold writeBatchDecodeFrom
    rw [dif_pos (by simp [entriesEncode, hoff])]
  | cons e es ih =>
    intro pre off hoff
    subst hoff
    have hwfe : WfEntry e := hwf e (List.mem_cons_self e es)
    have hwfs : WfBatch es := fun x hx => hwf x (List.mem_cons_of_mem e hx)
    have hpos := entryEncode_pos e
    have hcons : entriesEncode (e :: es) = entryEncode e ++ entriesEncode es :=
      rfl
    have hlen : (pre ++ entriesEncode (e :: es)).length =
        pre.length + (entryEncode e).length + (entriesEncode es).length := by
      rw [hcons, ← List.append_assoc, len_append3]
    unfold writeBatchDecodeFrom
    rw [dif_neg (by omega), dif_pos (by omega),
      drop_append_len pre (entriesEncode (e :: es)) pre.length rfl, hcons,
      entryDecode_encode e (entriesEncode es) hwfe]
    simp only []
    rw [dif_pos hpos, ← List.append_assoc,
      ih hwfs (pre ++ entryEncode e) (pre.length + (entryEncode e).length)
        (List.length_append pre (entryEncode e)).symm]

/-- `WriteBatch::encode` with its lets unfolded: the stored checksum is
the CRC of the record with the checksum field still zero, the stored
length is the header-included record length. -/
theorem writeBatchEncode_eq (es : List RawEntry) :
    writeBatchEncode es =
      fixedU32Bytes (crc32_checksum (List.replicate 4 0 ++
          fixedU32Bytes (8 + (entriesEncode es).length) ++ entriesEncode es)) ++
        fixedU32Bytes (8 + (entriesEncode es).length) ++ entriesEncode es := rfl

/-- The record produced by `WriteBatch::encode` is a byte list. -/
theorem writeBatchEncode_bytes (es : List RawEntry) (hwf : WfBatch es) :
    ByteList (writeBatchEncode es) := by
  rw [writeBatchEncode_eq]
  intro b hb
  simp only [List.mem_append] at hb
  rcases hb with (h | h) | h
  · exact fixedU32Bytes_bytes _ b h
  · exact fixedU32Bytes_bytes _ b h
  · exact entriesEncode_bytes es hwf b h

/-- The length of an encoded record: 8-byte header plus the body. -/
theorem writeBatchEncode_length (es : List RawEntry) :
    (writeBatchEncode es).length = 8 + (entriesEncode es).length := by
  rw [writeBatchEncode_eq]
  simp only [List.length_append, fixedU32Bytes_length]

/-- The record with its checksum field zeroed is a byte list. -/
theorem writeBatchZeroed_bytes (es : List RawEntry) (hwf : WfBatch es) :
    ByteList (List.replicate 4 0 ++
      fixedU32Bytes (8 + (entriesEncode es).length) ++ entriesEncode es) := by
  intro b hb
  simp only [List.mem_append] at hb
  rcases hb with (h | h) | h
  · have := List.eq_of_mem_replicate h
    omega
  · exact fixedU32Bytes_bytes _ b h
  · exact entriesEncode_bytes es hwf b h

/-- Decoding an encoded record through the WAL frame convention recovers
the batch. -/
theorem walFrameDecode_encode (es : List RawEntry) (hwf : WfBatch es) :
    walFrameDecode (writeBatchEncode es) = some (Except.ok es) := by
  have hcrc := crc32_checksum_lt _ (writeBatchZeroed_bytes es hwf)
  rw [writeBatchEncode_eq]
  unfold walFrameDecode
  simp only [List.append_assoc] at hcrc ⊢
  rw [take_append_len _ _ 4 (fixedU32Bytes_length _).symm,
    drop_append_len _ _ 4 (fixedU32Bytes_length _).symm,
    decode_fixed_u32_roundtrip, Nat.mod_eq_of_lt hcrc]
  unfold writeBatchDecode
  rw [if_neg (fun hcc => hcc rfl), ← List.append_assoc]
  exact writeBatchDecodeFrom_encode es hwf
    (List.replicate 4 0 ++ fixedU32Bytes (8 + (entriesEncode es).length)) 8
    (by simp [fixedU32Bytes_length])

/-- Any single-byte corruption of an encoded record turns the WAL decode
into a checksum error: a corrupted checksum field no longer matches the
recomputed CRC, and a corrupted length field or body changes the
recomputed CRC away from the stored checksum. -/
theorem walFrameDecode_corrupt (es : List RawEntry) (hwf : WfBatch es)
    (i x : Nat) (hi : i < (writeBatchEncode es).length) (hx : x < 256)
    (hne : x ≠ (writeBatchEncode es).getD i 0) :
    walFrameDecode ((writeBatchEncode es).set i x) =
      some (Except.error EikvError.walCorruption) := by
  have hcrc := crc32_checksum_lt _ (writeBatchZeroed_bytes es hwf)
  have hlen8 : i < 8 + (entriesEncode es).length := by
    rw [writeBatchEncode_length] at hi
    exact hi
  rw [writeBatchEncode_eq] at hne ⊢
  simp only [List.append_assoc] at hcrc hne ⊢
  by_cases hc : i < 4
  · rw [List.set_append_left i x (by rw [fixedU32Bytes_length]; exact hc)]
    unfold walFrameDecode
    rw [take_append_len _ _ 4 (by rw [List.length_set, fixedU32Bytes_length]),
      drop_append_len _ _ 4 (by rw [List.length_set, fixedU32Bytes_length])]
    unfold writeBatchDecode
    rw [List.getD_append _ _ 0 i (by rw [fixedU32Bytes_length]; exact hc)]
      at hne
    generalize hC : crc32_checksum (List.replicate 4 0 ++
      (fixedU32Bytes (8 + (entriesEncode es).length) ++ entriesEncode es)) = C
      at hcrc hne ⊢
    have hne2 : x ≠ [C % 256, C >>> 8 % 256, C >>> 16 % 256,
        C >>> 24 % 256].getD i 0 := hne
    have hround : decode_fixed_u32 (fixedU32Bytes C) = C := by
      rw [decode_fixed_u32_roundtrip, Nat.mod_eq_of_lt hcrc]
    rw [if_pos]
    intro hcontra
    apply decode_fixed_u32_set_ne (C % 256) (C >>> 8 % 256) (C >>> 16 % 256)
      (C >>> 24 % 256) i x (by omega) (by omega) (by omega) (by omega) hx hc
      hne2
    rw [show ([C % 256, C >>> 8 % 256, C >>> 16 % 256, C >>> 24 % 256] :
      List Nat) = fixedU32Bytes C from rfl, hround]
    exact hcontra
  · rw [List.set_append_right i x (by rw [fixedU32Bytes_length]; omega),
      fixedU32Bytes_length]
    unfold walFrameDecode
    rw [take_append_len _ _ 4 (fixedU32Bytes_length _).symm,
      drop_append_len _ _ 4 (fixedU32Bytes_length _).symm,
      decode_fixed_u32_roundtrip, Nat.mod_eq_of_lt hcrc]
    have hmlen : i - 4 < (fixedU32Bytes (8 + (entriesEncode es).length) ++
        entriesEncode es).length := by
      rw [List.length_append, fixedU32Bytes_length]
      omega
    rw [List.getD_append_right _ _ 0 i (by rw [fixedU32Bytes_length]; omega),
      fixedU32Bytes_length, List.getD_eq_get _ 0 hmlen] at hne
    have hmbytes : ByteList (fixedU32Bytes (8 + (entriesEncode es).length) ++
        entriesEncode es) := by
      intro b hb
      rcases List.mem_append.mp hb with h | h
      · exact fixedU32Bytes_bytes _ b h
      · exact entriesEncode_bytes es hwf b h
    have ho := hmbytes _ (List.get_mem _ _ hmlen)
    have hkey : crc32_checksum (List.replicate 4 0 ++
        ((fixedU32Bytes (8 + (entriesEncode es).length) ++ entriesEncode es).take
            (i - 4) ++
          (fixedU32Bytes (8 + (entriesEncode es).length) ++
              entriesEncode es).get ⟨i - 4, hmlen⟩ ::
            (fixedU32Bytes (8 + (entriesEncode es).length) ++
              entriesEncode es).drop (i - 4 + 1))) ≠
        crc32_checksum (List.replicate 4 0 ++
        ((fixedU32Bytes (8 + (entriesEncode es).length) ++ entriesEncode es).take
            (i - 4) ++
          x :: (fixedU32Bytes (8 + (entriesEncode es).length) ++
              entriesEncode es).drop (i - 4 + 1))) := by
      rw [← List.append_assoc, ← List.append_assoc]
      exact crc32_single_byte _ _ _ _ ho hx hne.symm
    rw [← list_decomp _ _ hmlen, ← set_decomp _ _ _ hmlen] at hkey
    unfold writeBatchDecode
    rw [if_pos hkey]

/-- A failed entry parse surfaces as the corruption error of
`Entry::decode`. -/
theorem entryDecode_of_fail (buf : List Nat)
    (h : decode_to_vec_u8 buf = some none) :
    entryDecode buf = some (Except.error EikvError.walCorruption) := by
  unfold entryDecode
  rw [h]

/-- `Entry::decode` always reaches a clean `Ok`/`Err` on any input. -/
theorem entryDecode_total (buf : List Nat) : ∃ r, entryDecode buf = some r := by
  obtain ⟨r, hr⟩ := decode_to_vec_u8_total buf
  unfold entryDecode
  rw [hr]
  cases r with
  | none => exact ⟨Except.error EikvError.walCorruption, rfl⟩
  | some p =>
    obtain ⟨e, n⟩ := p
    exact ⟨Except.ok (e, n), rfl⟩

/-- C6: for every well-formed write batch, encoding it into a WAL record
and decoding that record back (the checksum taken from its header) yields
the same batch — same entries in the same order — and changing any single
byte of the record anywhere makes the decode report the WAL-corruption
error instead of returning a batch. -/
theorem c6_wal_roundtrip_and_single_byte_corruption (es : List RawEntry)
    (hwf : WfBatch es) :
    walFrameDecode (writeBatchEncode es) = some (Except.ok es) ∧
      ∀ (i x : Nat), i < (writeBatchEncode es).length → x < 256 →
        x ≠ (writeBatchEncode es).getD i 0 →
        walFrameDecode ((writeBatchEncode es).set i x) =
          some (Except.error EikvError.walCorruption) :=
  ⟨walFrameDecode_encode es hwf,
    fun i x hi hx hne => walFrameDecode_corrupt es hwf i x hi hx hne⟩

/-- Witness for C6 at a concrete one-entry batch. -/
theorem c6_wal_roundtrip_and_single_byte_corruption_witness :
    WfBatch [⟨[107], 9, some [118]⟩] ∧
      (walFrameDecode (writeBatchEncode [⟨[107], 9, some [118]⟩]) =
          some (Except.ok [⟨[107], 9, some [118]⟩]) ∧
        ∀ (i x : Nat),
          i < (writeBatchEncode [⟨[107], 9, some [118]⟩]).length → x < 256 →
          x ≠ (writeBatchEncode [⟨[107], 9, some [118]⟩]).getD i 0 →
          walFrameDecode ((writeBatchEncode [⟨[107], 9, some [118]⟩]).set i x) =
            some (Except.error EikvError.walCorruption)) :=
  ⟨by decide,
    c6_wal_roundtrip_and_single_byte_corruption [⟨[107], 9, some [118]⟩]
      (by decide)⟩

/-- C7 (amended): in the record `crc32 ‖ length ‖ entries*` produced by
`WriteBatch::encode`, the stored checksum is the CRC-32 of the whole
record with its checksum field zeroed — not of the `length ‖ entries*`
suffix alone — and the stored length field is the total record length,
8-byte header included, reduced mod `2 ^ 32`. -/
theorem c7_header_fields (es : List RawEntry) (hwf : WfBatch es) :
    decode_fixed_u32 ((writeBatchEncode es).take 4) =
      crc32_checksum (List.replicate 4 0 ++ (writeBatchEncode es).drop 4) ∧
    decode_fixed_u32 (((writeBatchEncode es).drop 4).take 4) =
      (writeBatchEncode es).length % 2 ^ 32 := by
  have hcrc := crc32_checksum_lt _ (writeBatchZeroed_bytes es hwf)
  rw [writeBatchEncode_length, writeBatchEncode_eq]
  simp only [List.append_assoc] at hcrc ⊢
  rw [take_append_len _ _ 4 (fixedU32Bytes_length _).symm,
    drop_append_len _ _ 4 (fixedU32Bytes_length _).symm,
    take_append_len _ _ 4 (fixedU32Bytes_length _).symm,
    decode_fixed_u32_roundtrip, decode_fixed_u32_roundtrip,
    Nat.mod_eq_of_lt hcrc]
  exact ⟨rfl, rfl⟩

/-- Witness for C7 at a concrete one-tombstone batch. -/
theorem c7_header_fields_witness :
    WfBatch [⟨[107], 9, none⟩] ∧
      (decode_fixed_u32 ((writeBatchEncode [⟨[107], 9, none⟩]).take 4) =
        crc32_checksum (List.replicate 4 0 ++
          (writeBatchEncode [⟨[107], 9, none⟩]).drop 4) ∧
      decode_fixed_u32 (((writeBatchEncode [⟨[107], 9, none⟩]).drop 4).take 4) =
        (writeBatchEncode [⟨[107], 9, none⟩]).length % 2 ^ 32) :=
  ⟨by decide, c7_header_fields [⟨[107], 9, none⟩] (by decide)⟩

set_option maxRecDepth 4000 in
/-- C7 counterexample to the spec's wording: already for the empty batch
the stored checksum differs from the CRC-32 of the `length ‖ entries*`
suffix alone, so the CRC is not computed over exactly the bytes from the
length field through the entries. -/
theorem c7_crc_not_over_suffix_alone :
    decode_fixed_u32 ((writeBatchEncode []).take 4) ≠
      crc32_checksum ((writeBatchEncode []).drop 4) := by decide

/-- C8: an entry is encoded as varint key length ‖ key bytes ‖ varint seq
‖ tag, where tag `1` is followed by a length-prefixed value and tag `2` is
a bare tombstone; `Entry::decode` inverts exactly these two forms and
returns the corruption error on any other tag byte and on any strict
truncation of an encoding. -/
theorem c8_entry_codec (e : RawEntry) (hwf : WfEntry e) :
    entryEncode e =
      varBytes (e.key.length % 2 ^ 32) ++ e.key ++ varBytes e.seq ++
        (match e.value with
         | some v => 1 :: (varBytes (v.length % 2 ^ 32) ++ v)
         | none => [2]) ∧
    (∀ rest, entryDecode (entryEncode e ++ rest) =
      some (Except.ok (e, (entryEncode e).length))) ∧
    (∀ t suffix, t ≠ 1 → t ≠ 2 →
      entryDecode (varBytes e.key.length ++ e.key ++ varBytes e.seq ++
        t :: suffix) = some (Except.error EikvError.walCorruption)) ∧
    (∀ n, n < (entryEncode e).length →
      entryDecode ((entryEncode e).take n) =
        some (Except.error EikvError.walCorruption)) := by
  obtain ⟨hk, hkb, hs, hv⟩ := hwf
  refine ⟨rfl, fun rest => entryDecode_encode e rest ⟨hk, hkb, hs, hv⟩,
    fun t suffix ht1 ht2 =>
      entryDecode_of_fail _
        (decode_to_vec_u8_bad_tag e.key e.seq t suffix hk hs ht1 ht2),
    fun n hn =>
      entryDecode_of_fail _
        (decode_to_vec_u8_trunc e ⟨hk, hkb, hs, hv⟩ n hn)⟩

/-- Witness for C8 at a concrete put entry. -/
theorem c8_entry_codec_witness :
    WfEntry ⟨[107], 9, some [118]⟩ ∧
      (entryEncode ⟨[107], 9, some [118]⟩ =
        varBytes (([107] : List Nat).length % 2 ^ 32) ++ [107] ++
          varBytes 9 ++
          (1 :: (varBytes (([118] : List Nat).length % 2 ^ 32) ++ [118])) ∧
      (∀ rest, entryDecode (entryEncode ⟨[107], 9, some [118]⟩ ++ rest) =
        some (Except.ok (⟨[107], 9, some [118]⟩,
          (entryEncode ⟨[107], 9, some [118]⟩).length))) ∧
      (∀ t suffix, t ≠ 1 → t ≠ 2 →
        entryDecode (varBytes ([107] : List Nat).length ++ [107] ++
          varBytes 9 ++ t :: suffix) =
          some (Except.error EikvError.walCorruption)) ∧
      (∀ n, n < (entryEncode ⟨[107], 9, some [118]⟩).length →
        entryDecode ((entryEncode ⟨[107], 9, some [118]⟩).take n) =
          some (Except.error EikvError.walCorruption))) :=
  ⟨by decide, c8_entry_codec ⟨[107], 9, some [118]⟩ (by decide)⟩

/-- C10: the decoders are total — on every byte buffer, well-formed or
not, `decode_var_u32`, `decode_var_u64`, `decode_bytes_with_len` reach a
clean `Some`/`None` and `Entry::decode` reaches a clean `Ok`/`Err`; the
outer `Option` of each instrumented embedding is never `none`, so no slice
or index panic is reachable from any input. -/
theorem c10_decoders_total (buf : List Nat) :
    (∃ r, decode_var_u32 buf = some r) ∧
    (∃ r, decode_var_u64 buf = some r) ∧
    (∃ r, decode_bytes_with_len buf = some r) ∧
    (∃ r, entryDecode buf = some r) :=
  ⟨decode_var_u32_total buf, decode_var_u64_total buf,
    decode_bytes_with_len_total buf, entryDecode_total buf⟩

end Eikv
